import Mathlib

/-!
# Conway life game on a periodic grid: the `board_game` class of `lifegame.cpp`

The development embeds the state, the constructor, the accessor and `update()` of
`board_game` and proves properties of them.

Conventions of the embedding
* `size_type` (`size_t`) values are natural numbers and `size_t` arithmetic is modulo
  `2^64`.  The product `nb_rows*nb_cols` of the constructor and the index `i*nb_cols+j` of
  `operator()` and of `update()` carry the reduction explicitly (`size_range`,
  `size_index`).  The wrapped indices of `update()` are computed for `i < nb_rows` and
  `j < nb_cols`; on a grid whose buffer holds `nb_rows*nb_cols` cells the sums
  `i+nb_rows` and `j+nb_cols` stay below twice the size of an allocated buffer and do not
  wrap, and they are written as in the source, over the naturals.  Allocation is taken
  to succeed.
* `value_type` (`unsigned char`) values are natural numbers; the one place where a value
  is narrowed to `unsigned char` (the neighbour count) carries an explicit `% 256`.
* `m_board[k]` is unchecked in the source.  An access with `k` outside the buffer, and a
  `%` by zero, are undefined behaviour; the embedding makes them explicit as a `Fault`.
-/

namespace LifeGame

/-- Undefined behaviour of the source made explicit. -/
inductive Fault where
  /-- An access `m_board[k]` or `temp[k]` with `k` not below the size of the vector -/
  | out_of_bounds : Fault
  /-- A remainder `a % b` with `b = 0` -/
  | mod_by_zero : Fault
  deriving DecidableEq, Repr

/-- State of a `board_game` object: `nb_rows`, `nb_cols` and the vector `m_board`. -/
structure board_game where
  nb_rows : Nat
  nb_cols : Nat
  m_board : List Nat
  deriving DecidableEq, Repr

/-- The number of values of `size_t`. -/
def size_range : Nat := 2 ^ 64

/-- The `size_t` value of the index expression with mathematical value `k`, used on a
vector of `size` elements: `k` modulo `2^64`.  The size of a `std::vector` is itself a
`size_t`; a list of `2^64` or more elements is no vector, and for such a list the index is
left unreduced, so that statements over all lists need no bound on their length. -/
def size_index (size k : Nat) : Nat := if size < size_range then k % size_range else k

/-- Unchecked read `v[k]` of a `std::vector`. -/
def vec_read (v : List Nat) (k : Nat) : Except Fault Nat :=
  match v[k]? with
  | some x => Except.ok x
  | none => Except.error Fault.out_of_bounds

/-- Unchecked write `v[k] = x` of a `std::vector`. -/
def vec_write (v : List Nat) (k : Nat) (x : Nat) : Except Fault (List Nat) :=
  if k < v.length then Except.ok (v.set k x) else Except.error Fault.out_of_bounds

/-- The remainder `a % b` on `size_t`. -/
def size_mod (a b : Nat) : Except Fault Nat :=
  if b = 0 then Except.error Fault.mod_by_zero else Except.ok (a % b)

/-- The loop `for ( size_type i = 0; i < n; ++i ) body(i)` threading the state `s`:
the first `n` iterations are the first `n-1` iterations followed by `body (n-1)`. -/
def for_loop {σ : Type} (body : Nat → σ → Except Fault σ) : Nat → σ → Except Fault σ
  | 0, s => Except.ok s
  | n + 1, s =>
    match for_loop body n s with
    | Except.ok s1 => body n s1
    | Except.error e => Except.error e

/-- The index expression `i*nb_cols+j` of `operator()` and of the write of `update()`,
computed in `size_t`. -/
def slot_of (g : board_game) (i j : Nat) : Nat :=
  size_index g.m_board.length (i * g.nb_cols + j)

/-- The accessor `operator()(i,j) const`: the value `m_board[i*nb_cols+j]`. -/
def board_game.get (g : board_game) (i j : Nat) : Except Fault Nat :=
  vec_read g.m_board (slot_of g i j)

/-- The assignment `(*this)(i,j) = x` through the reference returned by the non-const
`operator()`. -/
def board_game.set (g : board_game) (i j : Nat) (x : Nat) : Except Fault board_game :=
  match vec_write g.m_board (slot_of g i j) x with
  | Except.ok b => Except.ok { g with m_board := b }
  | Except.error e => Except.error e

/-- The loop of the constructor over the pairs `row col` read from the input, in order:
`(*this)(row,col) = value_type(1)`. -/
def mark_cells : List (Nat × Nat) → board_game → Except Fault board_game
  | [], g => Except.ok g
  | p :: rest, g =>
    match g.set p.1 p.2 1 with
    | Except.ok g1 => mark_cells rest g1
    | Except.error e => Except.error e

/-- Constructor `board_game(std::istream&)` on an input holding `rows cols`, the number of
living cells and that many pairs `row col`: the buffer is `nb_rows*nb_cols` zeros, the
product being a `size_t`, then each pair is marked alive. -/
def board_game.construct (rows cols : Nat) (cells : List (Nat × Nat)) :
    Except Fault board_game :=
  mark_cells cells
    { nb_rows := rows, nb_cols := cols,
      m_board := List.replicate ((rows * cols) % size_range) 0 }

/-- The four wrapped indices computed at the head of the loop body of `update()`. -/
structure wrap_indices where
  left_index : Nat
  right_index : Nat
  bottom_index : Nat
  up_index : Nat
  deriving DecidableEq, Repr

/-- The indices `left_index = (j+nb_cols-1)%nb_cols`, `right_index = (j+1)%nb_cols`,
`bottom_index = (i+nb_rows-1)%nb_rows`, `up_index = (i+1)%nb_rows`. -/
def wrapped (g : board_game) (i j : Nat) : Except Fault wrap_indices :=
  match size_mod (j + g.nb_cols - 1) g.nb_cols, size_mod (j + 1) g.nb_cols,
        size_mod (i + g.nb_rows - 1) g.nb_rows, size_mod (i + 1) g.nb_rows with
  | Except.ok l, Except.ok r, Except.ok b, Except.ok u => Except.ok ⟨l, r, b, u⟩
  | Except.error e, _, _, _ => Except.error e
  | _, Except.error e, _, _ => Except.error e
  | _, _, Except.error e, _ => Except.error e
  | _, _, _, Except.error e => Except.error e

/-- The eight coordinates read for `nb_living_neighbours`, in the order of the source. -/
def neighbour_coords (w : wrap_indices) (i j : Nat) : List (Nat × Nat) :=
  [(w.bottom_index, w.left_index), (w.bottom_index, j), (w.bottom_index, w.right_index),
   (i, w.left_index), (i, w.right_index),
   (w.up_index, w.left_index), (w.up_index, j), (w.up_index, w.right_index)]

/-- Reads `board(p)` for each coordinate of a list and adds the values up. -/
def sum_cells (g : board_game) : List (Nat × Nat) → Except Fault Nat
  | [] => Except.ok 0
  | p :: ps =>
    match g.get p.1 p.2, sum_cells g ps with
    | Except.ok v, Except.ok s => Except.ok (v + s)
    | Except.error e, _ => Except.error e
    | _, Except.error e => Except.error e

/-- The decision of `update()`: for a living cell
`((nb>3) || (nb<2) ? 0 : 1)`, otherwise `(nb==3 ? 1 : 0)`. -/
def next_state (current nb_living_neighbours : Nat) : Nat :=
  if current = 1 then
    (if nb_living_neighbours > 3 ∨ nb_living_neighbours < 2 then 0 else 1)
  else
    (if nb_living_neighbours = 3 then 1 else 0)

/-- Body of the two nested loops of `update()` for the cell `(i,j)`: the wrapped indices,
the neighbour count narrowed to `unsigned char`, the decision, and the write
`temp[i*nb_cols+j] = ...`. -/
def update_cell (g : board_game) (i j : Nat) (temp : List Nat) : Except Fault (List Nat) :=
  match wrapped g i j with
  | Except.error e => Except.error e
  | Except.ok w =>
    match sum_cells g (neighbour_coords w i j) with
    | Except.error e => Except.error e
    | Except.ok s =>
      let nb_living_neighbours := s % 256
      match g.get i j with
      | Except.error e => Except.error e
      | Except.ok current =>
        vec_write temp (slot_of g i j) (next_state current nb_living_neighbours)

/-- The method `update()`: `temp` is `m_board.size()` zeros, the nested loops over `i < nb_rows` and
`j < nb_cols` fill it from `m_board`, and `temp.swap(m_board)` publishes it. -/
def board_game.update (g : board_game) : Except Fault board_game :=
  match for_loop (fun i temp => for_loop (fun j t => update_cell g i j t) g.nb_cols temp)
      g.nb_rows (List.replicate g.m_board.length 0) with
  | Except.ok temp => Except.ok { g with m_board := temp }
  | Except.error e => Except.error e

/-- The result of `n` successive calls of `update()`, as made by the idle callback of `main`. -/
def update_n : Nat → board_game → Except Fault board_game
  | 0, g => Except.ok g
  | n + 1, g =>
    match update_n n g with
    | Except.ok g1 => g1.update
    | Except.error e => Except.error e


/-! ## Pure description of one generation -/

/-- Value stored for `(i,j)`, `0` outside the buffer. -/
def cell (g : board_game) (i j : Nat) : Nat :=
  g.m_board.getD (i * g.nb_cols + j) 0

/-- The wrapped indices as plain values. -/
def wrap_of (g : board_game) (i j : Nat) : wrap_indices :=
  ⟨(j + g.nb_cols - 1) % g.nb_cols, (j + 1) % g.nb_cols,
   (i + g.nb_rows - 1) % g.nb_rows, (i + 1) % g.nb_rows⟩

/-- Sum of the stored values at a list of coordinates. -/
def cells_total (g : board_game) (ps : List (Nat × Nat)) : Nat :=
  (ps.map (fun p => cell g p.1 p.2)).sum

/-- The neighbour count of `(i,j)` as `update()` stores it. -/
def nb_count (g : board_game) (i j : Nat) : Nat :=
  cells_total g (neighbour_coords (wrap_of g i j) i j) % 256

/-- The value `update()` writes for `(i,j)`. -/
def new_value (g : board_game) (i j : Nat) : Nat :=
  next_state (cell g i j) (nb_count g i j)

/-- The buffer of the next generation. -/
def next_board (g : board_game) : List Nat :=
  (List.range (g.nb_rows * g.nb_cols)).map
    (fun k => new_value g (k / g.nb_cols) (k % g.nb_cols))


/-! ## The update rule in the words of the specification -/

/-- Specification: `left = (j-1+cols) mod cols`, over the integers. -/
def spec_left (cols j : Nat) : Nat := (((j : Int) - 1 + (cols : Int)) % (cols : Int)).toNat

/-- Specification: `right = (j+1) mod cols`. -/
def spec_right (cols j : Nat) : Nat := (((j : Int) + 1) % (cols : Int)).toNat

/-- Specification: `down = (i-1+rows) mod rows`, over the integers. -/
def spec_down (rows i : Nat) : Nat := (((i : Int) - 1 + (rows : Int)) % (rows : Int)).toNat

/-- Specification: `up = (i+1) mod rows`. -/
def spec_up (rows i : Nat) : Nat := (((i : Int) + 1) % (rows : Int)).toNat

/-- Specification: the combinations `{down,i,up} × {left,j,right}` without the
combination `(i,j)` itself, which is the fifth of the nine.  On a grid less than three
wide or high other combinations may be the coordinate `(i,j)` again; they stay, so that the
list always has eight entries. -/
def spec_neighbours (rows cols i j : Nat) : List (Nat × Nat) :=
  (List.product [spec_down rows i, i, spec_up rows i]
    [spec_left cols j, j, spec_right cols j]).eraseIdx 4

/-- Specification: the decision table of the update operation. -/
def spec_table (current n : Nat) : Nat :=
  if current = 1 then
    (if n < 2 then 0 else if n = 2 ∨ n = 3 then 1 else 0)
  else
    (if n = 3 then 1 else 0)

/-! ## Indicators used to describe patterns -/

/-- Indicator of the single index `r`. -/
def point_at (r x : Nat) : Nat := if x = r then 1 else 0

/-- Indicator of the three indices `c-1`, `c`, `c+1`. -/
def segment_at (c x : Nat) : Nat := if x = c - 1 ∨ x = c ∨ x = c + 1 then 1 else 0

/-- Indicator of the two indices `r`, `r+1`. -/
def pair_at (r x : Nat) : Nat := if x = r ∨ x = r + 1 then 1 else 0


/-! ## Concrete grids -/

/-- The 5x5 grid holding a blinker along row 2, centred at `(2,2)`. -/
def blinker_5x5 : board_game :=
  board_game.mk 5 5 [0, 0, 0, 0, 0, 0, 0, 0, 0, 0, 0, 1, 1, 1, 0, 0, 0, 0, 0, 0, 0, 0, 0, 0, 0]

/-- The 4x4 grid holding the block `(1,1)`, `(1,2)`, `(2,1)`, `(2,2)`. -/
def block_4x4 : board_game :=
  board_game.mk 4 4 [0, 0, 0, 0, 0, 1, 1, 0, 0, 1, 1, 0, 0, 0, 0, 0]


/-! ## Grids given by the list of their living cells, and cyclic shifts -/

/-- Value of the cell `(i,j)` in the grid whose living cells are listed in `cells`. -/
def alive_in : List (Nat × Nat) → Nat → Nat → Nat
  | [], _, _ => 0
  | p :: ps, i, j => bif Nat.beq p.1 i && Nat.beq p.2 j then 1 else alive_in ps i j

/-- The neighbour count that `update()` computes for `(i,j)` on the `rows x cols` grid whose
living cells are listed in `cells`. -/
def count_in (cells : List (Nat × Nat)) (rows cols i j : Nat) : Nat :=
  let left_index := (j + cols - 1) % cols
  let right_index := (j + 1) % cols
  let bottom_index := (i + rows - 1) % rows
  let up_index := (i + 1) % rows
  (alive_in cells bottom_index left_index + alive_in cells bottom_index j +
    alive_in cells bottom_index right_index + alive_in cells i left_index +
    alive_in cells i right_index + alive_in cells up_index left_index +
    alive_in cells up_index j + alive_in cells up_index right_index) % 256

/-- Conjunction of `f 0`, ..., `f (n-1)`. -/
def all_below (f : Nat → Bool) : Nat → Bool
  | 0 => true
  | n + 1 => f n && all_below f n

/-- Checks that all listed cells lie inside the extent `rows x cols`. -/
def cells_inside (rows cols : Nat) : List (Nat × Nat) → Bool
  | [] => true
  | p :: ps => Nat.blt p.1 rows && Nat.blt p.2 cols && cells_inside rows cols ps

/-- Checks, cell by cell, that the decision of `update()` on the grid of `cells` gives the
grid of `cells2`. -/
def step_check (rows cols : Nat) (cells cells2 : List (Nat × Nat)) : Bool :=
  all_below (fun i => all_below (fun j =>
    Nat.beq (next_state (alive_in cells i j) (count_in cells rows cols i j))
      (alive_in cells2 i j)) cols) rows

/-- Index from which a cyclic shift by `a` on `0..n-1` brings the value to `x`. -/
def shift_source (n a x : Nat) : Nat := (x + (n - a % n)) % n

/-- The grid shifted cyclically by `(a,b)`: the value of the cell `(i,j)` moves to
`((i+a) mod nb_rows, (j+b) mod nb_cols)`. -/
def shift_board (a b : Nat) (g : board_game) : board_game :=
  { g with
    m_board := (List.range (g.nb_rows * g.nb_cols)).map (fun k =>
      cell g (shift_source g.nb_rows a (k / g.nb_cols))
        (shift_source g.nb_cols b (k % g.nb_cols))) }

/-- The standard glider. -/
def glider_cells : List (Nat × Nat) := [(0, 1), (1, 2), (2, 0), (2, 1), (2, 2)]

/-- The glider after one generation. -/
def glider_phase1 : List (Nat × Nat) := [(1, 0), (1, 2), (2, 1), (2, 2), (3, 1)]

/-- The glider after two generations. -/
def glider_phase2 : List (Nat × Nat) := [(1, 2), (2, 0), (2, 2), (3, 1), (3, 2)]

/-- The glider after three generations. -/
def glider_phase3 : List (Nat × Nat) := [(1, 1), (2, 2), (2, 3), (3, 1), (3, 2)]

/-- The standard glider translated by `(+1,+1)`. -/
def glider_moved : List (Nat × Nat) := [(1, 2), (2, 3), (3, 1), (3, 2), (3, 3)]

/-- The living cells of the glider `r` generations after the standard position, for
`r` below 4. -/
def glider_phase : Nat → List (Nat × Nat)
  | 0 => glider_cells
  | 1 => glider_phase1
  | 2 => glider_phase2
  | _ => glider_phase3

/-- Checks that some cell listed in `cells` is dead in the grid of `cells2` shifted by
`(a,b)`. -/
def differs_shifted (rows cols a b : Nat) (cells cells2 : List (Nat × Nat)) : Bool :=
  cells.any (fun p =>
    Nat.beq (alive_in cells2 (shift_source rows a p.1) (shift_source cols b p.2)) 0)

/-- Checks that no phase of the glider shifted by `(k,k)` with `k < 20` is the standard
glider, other than the standard glider itself unshifted. -/
def glider_orbit_check : Bool :=
  all_below (fun k => all_below (fun r =>
    (Nat.beq k 0 && Nat.beq r 0) ||
      differs_shifted 20 20 k k glider_cells (glider_phase r)) 4) 20


/-! ## Neighbourhood on the torus -/

/-- Distance between the indices `x` and `y` on the cycle of length `n`. -/
def torus_dist (n x y : Nat) : Nat := min ((x + n - y) % n) ((y + n - x) % n)

/-- The coordinates inside the extent at toroidal distance 1 from `(i,j)`: the larger of
the cyclic row distance and the cyclic column distance is 1. -/
def at_distance_one (rows cols i j : Nat) : List (Nat × Nat) :=
  (List.product (List.range rows) (List.range cols)).filter
    (fun p => max (torus_dist rows p.1 i) (torus_dist cols p.2 j) = 1)

/-- The test `board(i,j) == 1` for a living cell, on a coordinate pair. -/
def is_alive (g : board_game) (p : Nat × Nat) : Bool :=
  match g.get p.1 p.2 with
  | Except.ok v => v == 1
  | Except.error _ => false


/-! ## Lemmas on the embedding -/

theorem index_lt {rows cols i j : Nat} (hi : i < rows) (hj : j < cols) :
    i * cols + j < rows * cols := by
  have h : (i + 1) * cols ≤ rows * cols := Nat.mul_le_mul_right cols hi
  rw [Nat.add_mul, Nat.one_mul] at h
  omega

theorem vec_read_of_lt {v : List Nat} {k : Nat} (h : k < v.length) :
    vec_read v k = Except.ok (v.getD k 0) := by
  simp [vec_read, List.getElem?_eq_getElem h]

theorem size_index_of_lt {size k : Nat} (h : k < size) : size_index size k = k := by
  unfold size_index
  split
  · exact Nat.mod_eq_of_lt (by omega)
  · rfl

theorem size_index_of_small {size k : Nat} (h : size < size_range) :
    size_index size k = k % size_range := by
  unfold size_index
  rw [if_pos h]

/-- Inside the extent of a grid with a full buffer the index does not wrap. -/
theorem slot_of_lt (g : board_game) (hlen : g.m_board.length = g.nb_rows * g.nb_cols)
    {i j : Nat} (hi : i < g.nb_rows) (hj : j < g.nb_cols) :
    slot_of g i j = i * g.nb_cols + j := by
  unfold slot_of
  exact size_index_of_lt (by rw [hlen]; exact index_lt hi hj)

theorem get_of_lt (g : board_game) (hlen : g.m_board.length = g.nb_rows * g.nb_cols)
    {i j : Nat} (hi : i < g.nb_rows) (hj : j < g.nb_cols) :
    g.get i j = Except.ok (cell g i j) := by
  unfold board_game.get cell
  rw [slot_of_lt g hlen hi hj]
  exact vec_read_of_lt (by rw [hlen]; exact index_lt hi hj)

theorem wrapped_of_lt (g : board_game) {i j : Nat} (hi : i < g.nb_rows) (hj : j < g.nb_cols) :
    wrapped g i j = Except.ok (wrap_of g i j) := by
  have hr : g.nb_rows ≠ 0 := by omega
  have hc : g.nb_cols ≠ 0 := by omega
  simp [wrapped, size_mod, hr, hc, wrap_of]

theorem sum_cells_of_lt (g : board_game) (hlen : g.m_board.length = g.nb_rows * g.nb_cols)
    (ps : List (Nat × Nat)) (hps : ∀ p ∈ ps, p.1 < g.nb_rows ∧ p.2 < g.nb_cols) :
    sum_cells g ps = Except.ok (cells_total g ps) := by
  induction ps with
  | nil => rfl
  | cons p ps ih =>
    have hp := hps p (List.mem_cons_self _ _)
    have ih1 := ih (fun q hq => hps q (List.mem_cons_of_mem _ hq))
    simp [sum_cells, get_of_lt g hlen hp.1 hp.2, ih1, cells_total]

theorem neighbour_coords_lt (g : board_game) {i j : Nat} (hi : i < g.nb_rows)
    (hj : j < g.nb_cols) :
    ∀ p ∈ neighbour_coords (wrap_of g i j) i j, p.1 < g.nb_rows ∧ p.2 < g.nb_cols := by
  have hr : 0 < g.nb_rows := by omega
  have hc : 0 < g.nb_cols := by omega
  have h1 := Nat.mod_lt (j + g.nb_cols - 1) hc
  have h2 := Nat.mod_lt (j + 1) hc
  have h3 := Nat.mod_lt (i + g.nb_rows - 1) hr
  have h4 := Nat.mod_lt (i + 1) hr
  intro p hp
  simp only [neighbour_coords, wrap_of, List.mem_cons, List.mem_singleton, List.mem_nil_iff,
    or_false] at hp
  rcases hp with h | h | h | h | h | h | h | h <;> subst h <;>
    exact ⟨by assumption, by assumption⟩

theorem update_cell_of_lt (g : board_game) (hlen : g.m_board.length = g.nb_rows * g.nb_cols)
    {i j : Nat} (hi : i < g.nb_rows) (hj : j < g.nb_cols) (temp : List Nat)
    (ht : temp.length = g.nb_rows * g.nb_cols) :
    update_cell g i j temp = Except.ok (temp.set (i * g.nb_cols + j) (new_value g i j)) := by
  have hk : i * g.nb_cols + j < temp.length := by rw [ht]; exact index_lt hi hj
  simp [update_cell, wrapped_of_lt g hi hj, slot_of_lt g hlen hi hj,
    sum_cells_of_lt g hlen _ (neighbour_coords_lt g hi hj), get_of_lt g hlen hi hj,
    vec_write, hk, new_value, nb_count]

/-- The inner loop of `update()` on row `i`, after `k` iterations. -/
theorem inner_loop_spec (g : board_game) (hlen : g.m_board.length = g.nb_rows * g.nb_cols)
    {i : Nat} (hi : i < g.nb_rows) (temp : List Nat)
    (ht : temp.length = g.nb_rows * g.nb_cols) :
    ∀ k, k ≤ g.nb_cols →
      ∃ t, for_loop (fun j t => update_cell g i j t) k temp = Except.ok t ∧
        t.length = g.nb_rows * g.nb_cols ∧
        ∀ idx, t[idx]? =
          if i * g.nb_cols ≤ idx ∧ idx < i * g.nb_cols + k
          then some (new_value g i (idx - i * g.nb_cols)) else temp[idx]? := by
  intro k
  induction k with
  | zero =>
    intro _
    refine ⟨temp, rfl, ht, fun idx => ?_⟩
    have : ¬ (i * g.nb_cols ≤ idx ∧ idx < i * g.nb_cols + 0) := by omega
    rw [if_neg this]
  | succ k ih =>
    intro hk
    obtain ⟨t, hrun, htl, hget⟩ := ih (by omega)
    have hj : k < g.nb_cols := by omega
    refine ⟨t.set (i * g.nb_cols + k) (new_value g i k), ?_, by simp [htl], fun idx => ?_⟩
    · simp only [for_loop, hrun]
      exact update_cell_of_lt g hlen hi hj t htl
    · have hin : i * g.nb_cols + k < t.length := by rw [htl]; exact index_lt hi hj
      rw [List.getElem?_set, hget idx]
      by_cases h1 : i * g.nb_cols + k = idx
      · subst h1
        simp [hin]
      · by_cases h2 : i * g.nb_cols ≤ idx ∧ idx < i * g.nb_cols + k
        · have h3 : i * g.nb_cols ≤ idx ∧ idx < i * g.nb_cols + (k + 1) := by omega
          simp [h1, h2, h3]
        · have h3 : ¬ (i * g.nb_cols ≤ idx ∧ idx < i * g.nb_cols + (k + 1)) := by omega
          simp [h1, h2, h3]

/-- The outer loop of `update()` after `k` rows. -/
theorem outer_loop_spec (g : board_game) (hlen : g.m_board.length = g.nb_rows * g.nb_cols)
    (temp : List Nat) (ht : temp.length = g.nb_rows * g.nb_cols) :
    ∀ k, k ≤ g.nb_rows →
      ∃ t, for_loop (fun i temp => for_loop (fun j t => update_cell g i j t) g.nb_cols temp)
            k temp = Except.ok t ∧
        t.length = g.nb_rows * g.nb_cols ∧
        ∀ idx, t[idx]? =
          if idx < k * g.nb_cols
          then some (new_value g (idx / g.nb_cols) (idx % g.nb_cols)) else temp[idx]? := by
  intro k
  induction k with
  | zero =>
    intro _
    refine ⟨temp, rfl, ht, fun idx => ?_⟩
    simp
  | succ k ih =>
    intro hk
    obtain ⟨t, hrun, htl, hget⟩ := ih (by omega)
    have hi : k < g.nb_rows := by omega
    obtain ⟨t2, hrun2, htl2, hget2⟩ := inner_loop_spec g hlen hi t htl g.nb_cols (Nat.le_refl _)
    refine ⟨t2, ?_, htl2, fun idx => ?_⟩
    · simp only [for_loop, hrun]
      exact hrun2
    · rw [hget2 idx, hget idx]
      have hsucc : (k + 1) * g.nb_cols = k * g.nb_cols + g.nb_cols := by
        rw [Nat.add_mul, Nat.one_mul]
      by_cases h1 : k * g.nb_cols ≤ idx ∧ idx < k * g.nb_cols + g.nb_cols
      · have hc : 0 < g.nb_cols := by omega
        have hdiv : idx / g.nb_cols = k := by
          apply Nat.div_eq_of_lt_le
          · rw [Nat.mul_comm] at h1 ⊢; exact h1.1
          · rw [hsucc]; exact h1.2
        have hmod : idx % g.nb_cols = idx - k * g.nb_cols := by
          have := Nat.div_add_mod idx g.nb_cols
          rw [hdiv, Nat.mul_comm] at this
          omega
        have h3 : idx < (k + 1) * g.nb_cols := by omega
        simp [h1, h3, hdiv, hmod]
      · by_cases h2 : idx < k * g.nb_cols
        · have h3 : idx < (k + 1) * g.nb_cols := by omega
          simp [h1, h2, h3]
        · have h3 : ¬ idx < (k + 1) * g.nb_cols := by omega
          simp [h1, h2, h3]

/-- On a grid whose buffer has `nb_rows*nb_cols` cells `update()` runs without fault and
publishes `next_board`. -/
theorem update_eq (g : board_game) (hlen : g.m_board.length = g.nb_rows * g.nb_cols) :
    g.update = Except.ok { g with m_board := next_board g } := by
  obtain ⟨t, hrun, htl, hget⟩ :=
    outer_loop_spec g hlen (List.replicate g.m_board.length 0) (by simp [hlen])
      g.nb_rows (Nat.le_refl _)
  have ht : t = next_board g := by
    apply List.ext_getElem?
    intro idx
    rw [hget idx]
    unfold next_board
    by_cases h : idx < g.nb_rows * g.nb_cols
    · simp [h, List.getElem?_range h]
    · have h2 : (List.range (g.nb_rows * g.nb_cols)).length ≤ idx := by simp; omega
      simp [h, hlen, List.getElem?_eq_none h2]
      omega
  simp only [board_game.update, hrun, ht]

theorem index_inj {cols i j i2 j2 : Nat} (hj : j < cols) (hj2 : j2 < cols)
    (h : i * cols + j = i2 * cols + j2) : i = i2 ∧ j = j2 := by
  have hc : 0 < cols := by omega
  have h1 : (i * cols + j) / cols = i := by
    rw [Nat.mul_comm, Nat.mul_add_div hc, Nat.div_eq_of_lt hj, Nat.add_zero]
  have h2 : (i2 * cols + j2) / cols = i2 := by
    rw [Nat.mul_comm, Nat.mul_add_div hc, Nat.div_eq_of_lt hj2, Nat.add_zero]
  have h3 : i = i2 := by rw [← h1, ← h2, h]
  subst h3
  exact ⟨rfl, by omega⟩

theorem set_of_lt (g : board_game) {i j : Nat} (x : Nat)
    (h : slot_of g i j < g.m_board.length) :
    g.set i j x = Except.ok { g with m_board := g.m_board.set (slot_of g i j) x } := by
  simp [board_game.set, vec_write, h]

theorem set_of_ge (g : board_game) {i j : Nat} (x : Nat)
    (h : g.m_board.length ≤ slot_of g i j) :
    g.set i j x = Except.error Fault.out_of_bounds := by
  have h2 : ¬ slot_of g i j < g.m_board.length := by omega
  simp [board_game.set, vec_write, h2]

/-- The index of a coordinate depends on the grid through `nb_cols` and the size of the
buffer only. -/
theorem slot_of_congr (g g2 : board_game) (hc : g2.nb_cols = g.nb_cols)
    (hl : g2.m_board.length = g.m_board.length) (i j : Nat) :
    slot_of g2 i j = slot_of g i j := by
  unfold slot_of
  rw [hc, hl]

/-- The marking loop succeeds when every pair addresses a slot of the buffer; it keeps the
dimensions and the size, and sets exactly the addressed slots to `1`. -/
theorem mark_cells_ok (cells : List (Nat × Nat)) :
    ∀ g : board_game, (∀ p ∈ cells, slot_of g p.1 p.2 < g.m_board.length) →
      ∃ g', mark_cells cells g = Except.ok g' ∧ g'.nb_rows = g.nb_rows ∧
        g'.nb_cols = g.nb_cols ∧ g'.m_board.length = g.m_board.length ∧
        ∀ idx, g'.m_board[idx]? =
          if ∃ p ∈ cells, slot_of g p.1 p.2 = idx then some 1 else g.m_board[idx]? := by
  induction cells with
  | nil =>
    intro g _
    exact ⟨g, rfl, rfl, rfl, rfl, fun idx => by simp⟩
  | cons p rest ih =>
    intro g hall
    have hp := hall p (List.mem_cons_self _ _)
    have hsame : ∀ i j,
        slot_of { g with m_board := g.m_board.set (slot_of g p.1 p.2) 1 } i j =
          slot_of g i j :=
      fun i j => slot_of_congr g
        { g with m_board := g.m_board.set (slot_of g p.1 p.2) 1 } rfl
        (List.length_set _ _ _) i j
    obtain ⟨g', hrun, hr, hc, hl, hget⟩ :=
      ih { g with m_board := g.m_board.set (slot_of g p.1 p.2) 1 }
        (fun q hq => by
          rw [hsame, List.length_set]
          exact hall q (List.mem_cons_of_mem _ hq))
    refine ⟨g', ?_, hr, hc, by simpa using hl, fun idx => ?_⟩
    · simp only [mark_cells, set_of_lt g 1 hp]
      exact hrun
    · rw [hget idx]
      simp only [hsame, List.mem_cons, exists_eq_or_imp]
      by_cases h1 : ∃ q ∈ rest, slot_of g q.1 q.2 = idx
      · simp [h1]
      · by_cases h2 : slot_of g p.1 p.2 = idx
        · subst h2
          simp [h1, List.getElem?_set, hp]
        · simp [h1, h2, List.getElem?_set]

/-- The marking loop hits the out-of-bounds fault when some pair addresses no slot. -/
theorem mark_cells_fault (cells : List (Nat × Nat)) :
    ∀ g : board_game, (∃ p ∈ cells, g.m_board.length ≤ slot_of g p.1 p.2) →
      mark_cells cells g = Except.error Fault.out_of_bounds := by
  induction cells with
  | nil =>
    intro g h
    obtain ⟨p, hp, _⟩ := h
    cases hp
  | cons p rest ih =>
    intro g h
    by_cases hp : slot_of g p.1 p.2 < g.m_board.length
    · obtain ⟨q, hq, hq2⟩ := h
      have hq3 : q ∈ rest := by
        rcases List.mem_cons.mp hq with h1 | h1
        · subst h1; omega
        · exact h1
      simp only [mark_cells, set_of_lt g 1 hp]
      refine ih _ ⟨q, hq3, ?_⟩
      rw [slot_of_congr g { g with m_board := g.m_board.set (slot_of g p.1 p.2) 1 } rfl
        (List.length_set _ _ _)]
      simpa using hq2
    · simp only [mark_cells, set_of_ge g 1 (Nat.le_of_not_lt hp)]

/-- The marking loop returns exactly when every pair addresses a slot of the buffer. -/
theorem mark_cells_cases (cells : List (Nat × Nat)) (g : board_game) :
    (mark_cells cells g = Except.error Fault.out_of_bounds ∧
      ∃ p ∈ cells, g.m_board.length ≤ slot_of g p.1 p.2) ∨
    ((∀ p ∈ cells, slot_of g p.1 p.2 < g.m_board.length) ∧
      ∃ g', mark_cells cells g = Except.ok g' ∧ g'.nb_rows = g.nb_rows ∧
        g'.nb_cols = g.nb_cols ∧ g'.m_board.length = g.m_board.length ∧
        ∀ idx, g'.m_board[idx]? =
          if ∃ p ∈ cells, slot_of g p.1 p.2 = idx then some 1 else g.m_board[idx]?) := by
  by_cases h : ∃ p ∈ cells, g.m_board.length ≤ slot_of g p.1 p.2
  · exact Or.inl ⟨mark_cells_fault cells g h, h⟩
  · have hall : ∀ p ∈ cells, slot_of g p.1 p.2 < g.m_board.length := by
      intro p hp
      by_contra hlt
      exact h ⟨p, hp, Nat.le_of_not_lt hlt⟩
    exact Or.inr ⟨hall, mark_cells_ok cells g hall⟩

/-- The index of a pair on the grid the constructor starts from. -/
theorem slot_of_initial (rows cols i j : Nat) :
    slot_of (board_game.mk rows cols (List.replicate ((rows * cols) % size_range) 0)) i j =
      (i * cols + j) % size_range := by
  unfold slot_of
  simp only [List.length_replicate]
  exact size_index_of_small (Nat.mod_lt _ (by decide))

/-- A valid construction with an extent whose product is a `size_t`: dimensions, size
and cells of the result. -/
theorem construct_ok (rows cols : Nat) (cells : List (Nat × Nat))
    (hsz : rows * cols < size_range)
    (hcells : ∀ p ∈ cells, p.1 < rows ∧ p.2 < cols) :
    ∃ g, board_game.construct rows cols cells = Except.ok g ∧ g.nb_rows = rows ∧
      g.nb_cols = cols ∧ g.m_board.length = rows * cols ∧
      ∀ i j, i < rows → j < cols → cell g i j = if (i, j) ∈ cells then 1 else 0 := by
  have hmod : (rows * cols) % size_range = rows * cols := Nat.mod_eq_of_lt hsz
  have hcon : board_game.construct rows cols cells =
      mark_cells cells (board_game.mk rows cols (List.replicate (rows * cols) 0)) := by
    unfold board_game.construct
    rw [hmod]
  have hslot : ∀ i j, i < rows → j < cols →
      slot_of (board_game.mk rows cols (List.replicate (rows * cols) 0)) i j =
        i * cols + j := by
    intro i j hi hj
    unfold slot_of
    exact size_index_of_lt (by simpa using index_lt hi hj)
  obtain ⟨g, hrun, hr, hc, hl, hget⟩ :=
    mark_cells_ok cells (board_game.mk rows cols (List.replicate (rows * cols) 0))
      (fun p hp => by
        rw [hslot p.1 p.2 (hcells p hp).1 (hcells p hp).2]
        simpa using index_lt (hcells p hp).1 (hcells p hp).2)
  simp only [List.length_replicate] at hl hget
  refine ⟨g, hcon.trans hrun, hr, hc, hl, fun i j hi hj => ?_⟩
  have hidx := index_lt hi hj
  unfold cell
  rw [List.getD_eq_getElem?_getD, hc, hget (i * cols + j)]
  by_cases hm : (i, j) ∈ cells
  · have : ∃ p ∈ cells,
        slot_of (board_game.mk rows cols (List.replicate (rows * cols) 0)) p.1 p.2 =
          i * cols + j := ⟨(i, j), hm, hslot i j hi hj⟩
    rw [if_pos this, if_pos hm]
    rfl
  · have : ¬ ∃ p ∈ cells,
        slot_of (board_game.mk rows cols (List.replicate (rows * cols) 0)) p.1 p.2 =
          i * cols + j := by
      rintro ⟨p, hp, he⟩
      rw [hslot p.1 p.2 (hcells p hp).1 (hcells p hp).2] at he
      obtain ⟨h1, h2⟩ := index_inj (hcells p hp).2 hj he
      apply hm
      have : p = (i, j) := Prod.ext h1 h2
      rw [← this]; exact hp
    rw [if_neg this, if_neg hm]
    simp [hidx]

/-- The marking loop depends only on the set of the listed pairs. -/
theorem mark_cells_congr (cells other : List (Nat × Nat)) (g : board_game)
    (h : ∀ p, p ∈ cells ↔ p ∈ other) : mark_cells cells g = mark_cells other g := by
  rcases mark_cells_cases cells g with ⟨he, p, hp, hge⟩ | ⟨hall, g1, hg1, hr1, hc1, hl1, hget1⟩
  · rw [he, mark_cells_fault other g ⟨p, (h p).mp hp, hge⟩]
  · obtain ⟨g2, hg2, hr2, hc2, hl2, hget2⟩ :=
      mark_cells_ok other g (fun p hp => hall p ((h p).mpr hp))
    rw [hg1, hg2]
    congr 1
    have hboard : g1.m_board = g2.m_board := by
      apply List.ext_getElem?
      intro idx
      rw [hget1 idx, hget2 idx]
      by_cases hm : ∃ p ∈ cells, slot_of g p.1 p.2 = idx
      · have hm2 : ∃ p ∈ other, slot_of g p.1 p.2 = idx := by
          obtain ⟨p, hp, e⟩ := hm
          exact ⟨p, (h p).mp hp, e⟩
        rw [if_pos hm, if_pos hm2]
      · have hm2 : ¬ ∃ p ∈ other, slot_of g p.1 p.2 = idx := by
          rintro ⟨p, hp, e⟩
          exact hm ⟨p, (h p).mpr hp, e⟩
        rw [if_neg hm, if_neg hm2]
    cases g1
    cases g2
    simp only [board_game.mk.injEq]
    exact ⟨hr1.trans hr2.symm, hc1.trans hc2.symm, hboard⟩

/-- A loop whose first iteration faults, faults. -/
theorem for_loop_fault_first {σ : Type} (body : Nat → σ → Except Fault σ) (e : Fault) (s : σ)
    (h : body 0 s = Except.error e) : ∀ n, 0 < n → for_loop body n s = Except.error e := by
  intro n
  induction n with
  | zero => intro h0; omega
  | succ n ih =>
    intro _
    rcases Nat.eq_zero_or_pos n with h0 | h0
    · subst h0
      simp only [for_loop]
      exact h
    · simp only [for_loop, ih h0]

theorem spec_left_eq {cols : Nat} (hc : 1 ≤ cols) (j : Nat) :
    spec_left cols j = (j + cols - 1) % cols := by
  unfold spec_left
  have h : ((j : Int) - 1 + (cols : Int)) = ((j + cols - 1 : Nat) : Int) := by omega
  rw [h, ← Int.natCast_mod, Int.toNat_natCast]

theorem spec_right_eq (cols j : Nat) : spec_right cols j = (j + 1) % cols := by
  unfold spec_right
  have h : ((j : Int) + 1) = ((j + 1 : Nat) : Int) := by omega
  rw [h, ← Int.natCast_mod, Int.toNat_natCast]

theorem spec_neighbours_eq (g : board_game) (hr : 1 ≤ g.nb_rows) (hc : 1 ≤ g.nb_cols)
    (i j : Nat) :
    spec_neighbours g.nb_rows g.nb_cols i j = neighbour_coords (wrap_of g i j) i j := by
  simp [spec_neighbours, spec_down, spec_up, neighbour_coords, wrap_of, List.product,
    ← spec_left_eq hc, ← spec_left_eq hr, ← spec_right_eq, spec_left, spec_right]

theorem cell_le_one (g : board_game) (hbin : ∀ v ∈ g.m_board, v = 0 ∨ v = 1) (i j : Nat) :
    cell g i j ≤ 1 := by
  unfold cell
  rw [List.getD_eq_getElem?_getD]
  cases h : g.m_board[i * g.nb_cols + j]? with
  | none => simp
  | some v =>
    have hv : v ∈ g.m_board := by
      obtain ⟨hlt, he⟩ := List.getElem?_eq_some.mp h
      rw [← he]; exact List.getElem_mem _
    rcases hbin v hv with h0 | h1
    · simp [h0]
    · simp [h1]

theorem cells_total_le (g : board_game) (hbin : ∀ v ∈ g.m_board, v = 0 ∨ v = 1)
    (ps : List (Nat × Nat)) : cells_total g ps ≤ ps.length := by
  induction ps with
  | nil => simp [cells_total]
  | cons p ps ih =>
    have h := cell_le_one g hbin p.1 p.2
    simp only [cells_total, List.map_cons, List.sum_cons, List.length_cons] at ih ⊢
    omega

theorem next_state_eq_spec_table (current n : Nat) :
    next_state current n = spec_table current n := by
  unfold next_state spec_table
  split_ifs <;> first | rfl | omega

theorem spec_table_iff {old : Nat} (h : old ≤ 1) (n : Nat) :
    spec_table old n = 1 ↔ (old = 1 ∧ (n = 2 ∨ n = 3)) ∨ (old = 0 ∧ n = 3) := by
  unfold spec_table
  split_ifs <;> constructor <;> intro h2 <;> first | omega | exact h2.elim

theorem next_state_binary (current n : Nat) :
    next_state current n = 0 ∨ next_state current n = 1 := by
  unfold next_state
  split_ifs <;> simp

theorem next_board_length (g : board_game) : (next_board g).length = g.nb_rows * g.nb_cols := by
  simp [next_board]

theorem next_board_binary (g : board_game) : ∀ v ∈ next_board g, v = 0 ∨ v = 1 := by
  intro v hv
  simp only [next_board, List.mem_map] at hv
  obtain ⟨k, _, hk⟩ := hv
  rw [← hk]
  exact next_state_binary _ _

theorem cell_next_board (g : board_game) {i j : Nat} (hi : i < g.nb_rows) (hj : j < g.nb_cols) :
    cell { g with m_board := next_board g } i j = new_value g i j := by
  have hidx := index_lt hi hj
  have hc : 0 < g.nb_cols := by omega
  have h1 : (i * g.nb_cols + j) / g.nb_cols = i := by
    rw [Nat.mul_comm, Nat.mul_add_div hc, Nat.div_eq_of_lt hj, Nat.add_zero]
  have h2 : (i * g.nb_cols + j) % g.nb_cols = j := by
    rw [Nat.mul_comm, Nat.mul_add_mod, Nat.mod_eq_of_lt hj]
  simp [cell, next_board, List.getElem?_range hidx, h1, h2]

theorem for_loop_preserves {σ : Type} (P : σ → Prop) (body : Nat → σ → Except Fault σ)
    (hbody : ∀ i s s', P s → body i s = Except.ok s' → P s') :
    ∀ n s s', P s → for_loop body n s = Except.ok s' → P s' := by
  intro n
  induction n with
  | zero =>
    intro s s' hs h
    simp only [for_loop, Except.ok.injEq] at h
    rw [← h]; exact hs
  | succ n ih =>
    intro s s' hs h
    simp only [for_loop] at h
    cases hrun : for_loop body n s with
    | error e => rw [hrun] at h; cases h
    | ok s1 =>
      rw [hrun] at h
      exact hbody n s1 s' (ih s s1 hs hrun) h

theorem vec_write_length {v t : List Nat} {k x : Nat} (h : vec_write v k x = Except.ok t) :
    t.length = v.length := by
  unfold vec_write at h
  split at h
  · simp only [Except.ok.injEq] at h
    rw [← h, List.length_set]
  · cases h

theorem update_cell_length (g : board_game) (i j : Nat) {temp t : List Nat}
    (h : update_cell g i j temp = Except.ok t) : t.length = temp.length := by
  unfold update_cell at h
  split at h
  · cases h
  · split at h
    · cases h
    · split at h
      · cases h
      · exact vec_write_length h

/-- Whenever `update()` returns, the dimensions and the size of the buffer are unchanged. -/
theorem update_preserves (g g' : board_game) (h : g.update = Except.ok g') :
    g'.nb_rows = g.nb_rows ∧ g'.nb_cols = g.nb_cols ∧
      g'.m_board.length = g.m_board.length := by
  unfold board_game.update at h
  split at h
  · rename_i temp hrun
    simp only [Except.ok.injEq] at h
    rw [← h]
    refine ⟨rfl, rfl, ?_⟩
    have := for_loop_preserves (fun t : List Nat => t.length = g.m_board.length)
      (fun i temp => for_loop (fun j t => update_cell g i j t) g.nb_cols temp)
      (fun i s s' hs hrow =>
        for_loop_preserves (fun t : List Nat => t.length = g.m_board.length)
          (fun j t => update_cell g i j t)
          (fun j t t' ht hcell => (update_cell_length g i j hcell).trans ht)
          g.nb_cols s s' hs hrow)
      g.nb_rows (List.replicate g.m_board.length 0) temp (by simp) hrun
    exact this
  · cases h

theorem update_n_spec (n : Nat) :
    ∀ g : board_game, g.m_board.length = g.nb_rows * g.nb_cols →
      ∃ g', update_n n g = Except.ok g' ∧ g'.nb_rows = g.nb_rows ∧ g'.nb_cols = g.nb_cols ∧
        g'.m_board.length = g.nb_rows * g.nb_cols ∧
        (0 < n → ∀ v ∈ g'.m_board, v = 0 ∨ v = 1) := by
  induction n with
  | zero =>
    intro g hlen
    exact ⟨g, rfl, rfl, rfl, hlen, fun h => absurd h (Nat.lt_irrefl 0)⟩
  | succ n ih =>
    intro g hlen
    obtain ⟨g1, hrun, hr, hc, hl, _⟩ := ih g hlen
    have hlen1 : g1.m_board.length = g1.nb_rows * g1.nb_cols := by rw [hl, hr, hc]
    refine ⟨{ g1 with m_board := next_board g1 }, ?_, hr, hc, ?_, fun _ => next_board_binary g1⟩
    · simp only [update_n, hrun]
      exact update_eq g1 hlen1
    · simp [next_board_length, hr, hc]

/-- Whenever the constructor returns, the grid has the extent read from the input, a
buffer of `nb_rows*nb_cols` cells, the product being a `size_t`, and every stored value
is `0` or `1`. -/
theorem construct_returns (rows cols : Nat) (cells : List (Nat × Nat)) (g : board_game)
    (h : board_game.construct rows cols cells = Except.ok g) :
    g.nb_rows = rows ∧ g.nb_cols = cols ∧
      g.m_board.length = (rows * cols) % size_range ∧
      ∀ v ∈ g.m_board, v = 0 ∨ v = 1 := by
  unfold board_game.construct at h
  rcases mark_cells_cases cells
    (board_game.mk rows cols (List.replicate ((rows * cols) % size_range) 0)) with
    ⟨herr, _⟩ | ⟨_, g', hg', hr, hc, hl, hget⟩
  · rw [herr] at h
    cases h
  · rw [hg'] at h
    have e := Except.ok.inj h
    subst e
    refine ⟨hr, hc, by simpa using hl, fun v hv => ?_⟩
    obtain ⟨idx, hlt, hidx⟩ := List.getElem_of_mem hv
    have hv2 := hget idx
    rw [List.getElem?_eq_getElem hlt, hidx] at hv2
    split at hv2
    · simp only [Option.some.injEq] at hv2
      exact Or.inr hv2
    · simp only [List.getElem?_replicate] at hv2
      split at hv2
      · simp only [Option.some.injEq] at hv2
        exact Or.inl hv2
      · cases hv2

/-- When the loop body of `update()` faults on the cell `(0,0)`, `update()` faults. -/
theorem update_fault_first (g : board_game) (e : Fault) (hr : 0 < g.nb_rows)
    (hc : 0 < g.nb_cols)
    (h : update_cell g 0 0 (List.replicate g.m_board.length 0) = Except.error e) :
    g.update = Except.error e := by
  have hinner : (fun i temp => for_loop (fun j t => update_cell g i j t) g.nb_cols temp) 0
      (List.replicate g.m_board.length 0) = Except.error e :=
    for_loop_fault_first (fun j t => update_cell g 0 j t) e _ h g.nb_cols hc
  have houter := for_loop_fault_first
    (fun i temp => for_loop (fun j t => update_cell g i j t) g.nb_cols temp) e _ hinner
    g.nb_rows hr
  unfold board_game.update
  rw [houter]



theorem wrap_prev {n x : Nat} (hx : x < n) :
    (x + n - 1) % n = if x = 0 then n - 1 else x - 1 := by
  split
  · rename_i h
    subst h
    rw [Nat.zero_add]
    exact Nat.mod_eq_of_lt (by omega)
  · have h : x + n - 1 = (x - 1) + n := by omega
    rw [h, Nat.add_mod_right]
    exact Nat.mod_eq_of_lt (by omega)

theorem wrap_next {n x : Nat} (hx : x < n) :
    (x + 1) % n = if x + 1 = n then 0 else x + 1 := by
  split
  · rename_i h
    rw [h, Nat.mod_self]
  · exact Nat.mod_eq_of_lt (by omega)

theorem wrap_prev_cases {n x : Nat} (hx : x < n) :
    (x = 0 ∧ (x + n - 1) % n = n - 1) ∨ (0 < x ∧ (x + n - 1) % n = x - 1) := by
  rw [wrap_prev hx]
  split <;> omega

theorem wrap_next_cases {n x : Nat} (hx : x < n) :
    (x + 1 = n ∧ (x + 1) % n = 0) ∨ (x + 1 < n ∧ (x + 1) % n = x + 1) := by
  rw [wrap_next hx]
  split <;> omega

/-- The three wrapped positions around `x` see the point `r` exactly on the segment around
`r`, when `r` is not on the border. -/
theorem point_triple {n r x : Nat} (hn : 3 ≤ n) (hr1 : 1 ≤ r) (hr2 : r ≤ n - 2) (hx : x < n) :
    point_at r ((x + n - 1) % n) + point_at r x + point_at r ((x + 1) % n) =
      segment_at r x := by
  have hl := wrap_prev_cases hx
  have hu := wrap_next_cases hx
  generalize (x + n - 1) % n = l at hl
  generalize (x + 1) % n = u at hu
  unfold point_at segment_at
  split_ifs <;> omega

/-- The number of the three wrapped positions around `x` lying on the segment around `c`. -/
theorem segment_triple {n c x : Nat} (hn : 5 ≤ n) (hc1 : 1 ≤ c) (hc2 : c ≤ n - 2)
    (hx : x < n) :
    (point_at c x = 1 →
      segment_at c ((x + n - 1) % n) + segment_at c x + segment_at c ((x + 1) % n) = 3) ∧
    (point_at c x = 0 → segment_at c x = 1 →
      segment_at c ((x + n - 1) % n) + segment_at c x + segment_at c ((x + 1) % n) = 2) ∧
    (segment_at c x = 0 →
      segment_at c ((x + n - 1) % n) + segment_at c x + segment_at c ((x + 1) % n) ≤ 1) := by
  have hl := wrap_prev_cases hx
  have hu := wrap_next_cases hx
  generalize (x + n - 1) % n = l at hl
  generalize (x + 1) % n = u at hu
  unfold point_at segment_at
  refine ⟨fun h1 => ?_, fun h1 h2 => ?_, fun h1 => ?_⟩ <;> split_ifs at * <;> omega



/-- Two grids of the same extent, with full buffers and the same value at every coordinate
inside the extent, are equal. -/
theorem board_ext (a b : board_game) (hr : a.nb_rows = b.nb_rows) (hc : a.nb_cols = b.nb_cols)
    (ha : a.m_board.length = a.nb_rows * a.nb_cols)
    (hb : b.m_board.length = b.nb_rows * b.nb_cols)
    (hcell : ∀ i j, i < a.nb_rows → j < a.nb_cols → cell a i j = cell b i j) : a = b := by
  have hboard : a.m_board = b.m_board := by
    apply List.ext_getElem?
    intro idx
    by_cases hidx : idx < a.nb_rows * a.nb_cols
    · have hcpos : 0 < a.nb_cols := by
        rcases Nat.eq_zero_or_pos a.nb_cols with h | h
        · rw [h, Nat.mul_zero] at hidx; omega
        · exact h
      have hj : idx % a.nb_cols < a.nb_cols := Nat.mod_lt _ hcpos
      have hi : idx / a.nb_cols < a.nb_rows := by
        apply Nat.div_lt_of_lt_mul
        rw [Nat.mul_comm]; exact hidx
      have hsplit : idx / a.nb_cols * a.nb_cols + idx % a.nb_cols = idx := by
        rw [Nat.mul_comm]; exact Nat.div_add_mod idx a.nb_cols
      have h := hcell _ _ hi hj
      unfold cell at h
      rw [← hc, hsplit] at h
      have h1 : idx < a.m_board.length := by rw [ha]; exact hidx
      have h2 : idx < b.m_board.length := by rw [hb, ← hr, ← hc]; exact hidx
      rw [List.getD_eq_getElem?_getD, List.getD_eq_getElem?_getD,
        List.getElem?_eq_getElem h1, List.getElem?_eq_getElem h2] at h
      rw [List.getElem?_eq_getElem h1, List.getElem?_eq_getElem h2]
      simpa using h
    · have h1 : a.m_board.length ≤ idx := by rw [ha]; omega
      have h2 : b.m_board.length ≤ idx := by rw [hb, ← hr, ← hc]; omega
      rw [List.getElem?_eq_none h1, List.getElem?_eq_none h2]
  cases a
  cases b
  simp only [board_game.mk.injEq]
  exact ⟨hr, hc, hboard⟩

/-- Neighbour sum of a pattern that is a product of a row profile and a column profile. -/
theorem cells_total_product (g : board_game) (R C : Nat → Nat)
    (hprod : ∀ i j, i < g.nb_rows → j < g.nb_cols → cell g i j = R i * C j)
    {i j : Nat} (hi : i < g.nb_rows) (hj : j < g.nb_cols) :
    cells_total g (neighbour_coords (wrap_of g i j) i j) + R i * C j =
      (R ((i + g.nb_rows - 1) % g.nb_rows) + R i + R ((i + 1) % g.nb_rows)) *
        (C ((j + g.nb_cols - 1) % g.nb_cols) + C j + C ((j + 1) % g.nb_cols)) := by
  have hr : 0 < g.nb_rows := by omega
  have hc : 0 < g.nb_cols := by omega
  have h1 := Nat.mod_lt (j + g.nb_cols - 1) hc
  have h2 := Nat.mod_lt (j + 1) hc
  have h3 := Nat.mod_lt (i + g.nb_rows - 1) hr
  have h4 := Nat.mod_lt (i + 1) hr
  simp only [cells_total, neighbour_coords, wrap_of, List.map_cons, List.map_nil,
    List.sum_cons, List.sum_nil]
  rw [hprod _ _ h3 h1, hprod _ _ h3 hj, hprod _ _ h3 h2, hprod _ _ hi h1, hprod _ _ hi h2,
    hprod _ _ h4 h1, hprod _ _ h4 hj, hprod _ _ h4 h2]
  ring

/-- The decision for a cell of a blinker, from the profile values: `a`, `A` are the point
indicator and its triple sum on the axis across the blinker, `b`, `B` the segment
indicator and its triple sum on the axis along it, `q` the point indicator on that axis,
and `s` the neighbour sum. -/
theorem blinker_decision {a A b B q s : Nat} (ha : a ≤ A) (hA : A ≤ 1)
    (hcase : (q = 1 ∧ b = 1 ∧ B = 3) ∨ (q = 0 ∧ b = 1 ∧ B = 2) ∨ (q = 0 ∧ b = 0 ∧ B ≤ 1))
    (hs : s + a * b = A * B) :
    next_state (a * b) (s % 256) = A * q := by
  have hA2 : A = 0 ∨ A = 1 := by omega
  have ha2 : a = 0 ∨ a = 1 := by omega
  rcases hcase with ⟨rfl, rfl, rfl⟩ | ⟨rfl, rfl, rfl⟩ | ⟨rfl, rfl, hB⟩ <;>
    rcases hA2 with rfl | rfl <;> rcases ha2 with rfl | rfl <;>
    (have hs3 : s ≤ 3 := by omega) <;>
    interval_cases s <;> first | rfl | omega


theorem segment_cases {n c x : Nat} (hn : 5 ≤ n) (hc1 : 1 ≤ c) (hc2 : c ≤ n - 2)
    (hx : x < n) :
    (point_at c x = 1 ∧ segment_at c x = 1 ∧
      segment_at c ((x + n - 1) % n) + segment_at c x + segment_at c ((x + 1) % n) = 3) ∨
    (point_at c x = 0 ∧ segment_at c x = 1 ∧
      segment_at c ((x + n - 1) % n) + segment_at c x + segment_at c ((x + 1) % n) = 2) ∨
    (point_at c x = 0 ∧ segment_at c x = 0 ∧
      segment_at c ((x + n - 1) % n) + segment_at c x + segment_at c ((x + 1) % n) ≤ 1) := by
  have h := segment_triple hn hc1 hc2 hx
  have hp : point_at c x = 0 ∨ point_at c x = 1 := by
    unfold point_at; split_ifs <;> simp
  have hs : segment_at c x = 0 ∨ segment_at c x = 1 := by
    unfold segment_at; split_ifs <;> simp
  have hps : point_at c x ≤ segment_at c x := by
    unfold point_at segment_at; split_ifs <;> omega
  rcases hp with hp | hp <;> rcases hs with hs | hs
  · exact Or.inr (Or.inr ⟨hp, hs, h.2.2 hs⟩)
  · exact Or.inr (Or.inl ⟨hp, hs, h.2.1 hp hs⟩)
  · omega
  · exact Or.inl ⟨hp, hs, h.1 hp⟩

theorem point_le_segment (r x : Nat) : point_at r x ≤ segment_at r x := by
  unfold point_at segment_at; split_ifs <;> omega

theorem segment_le_one (r x : Nat) : segment_at r x ≤ 1 := by
  unfold segment_at; split_ifs <;> omega

/-- One generation of a blinker lying along the columns: the cells of the next
generation are the blinker standing along the rows. -/
theorem blinker_rows_to_cols (g : board_game) (r c : Nat)
    (hrows : 3 ≤ g.nb_rows) (hcols : 5 ≤ g.nb_cols)
    (hr1 : 1 ≤ r) (hr2 : r ≤ g.nb_rows - 2) (hc1 : 1 ≤ c) (hc2 : c ≤ g.nb_cols - 2)
    (hprod : ∀ i j, i < g.nb_rows → j < g.nb_cols →
      cell g i j = point_at r i * segment_at c j)
    {i j : Nat} (hi : i < g.nb_rows) (hj : j < g.nb_cols) :
    new_value g i j = segment_at r i * point_at c j := by
  have hs := cells_total_product g (point_at r) (segment_at c) hprod hi hj
  rw [point_triple hrows hr1 hr2 hi] at hs
  unfold new_value nb_count
  rw [hprod i j hi hj]
  exact blinker_decision (point_le_segment r i) (segment_le_one r i)
    (segment_cases hcols hc1 hc2 hj) hs

/-- One generation of a blinker standing along the rows: the cells of the next generation
are the blinker lying along the columns. -/
theorem blinker_cols_to_rows (g : board_game) (r c : Nat)
    (hrows : 5 ≤ g.nb_rows) (hcols : 3 ≤ g.nb_cols)
    (hr1 : 1 ≤ r) (hr2 : r ≤ g.nb_rows - 2) (hc1 : 1 ≤ c) (hc2 : c ≤ g.nb_cols - 2)
    (hprod : ∀ i j, i < g.nb_rows → j < g.nb_cols →
      cell g i j = segment_at r i * point_at c j)
    {i j : Nat} (hi : i < g.nb_rows) (hj : j < g.nb_cols) :
    new_value g i j = point_at r i * segment_at c j := by
  have hs := cells_total_product g (segment_at r) (point_at c) hprod hi hj
  rw [point_triple hcols hc1 hc2 hj] at hs
  unfold new_value nb_count
  rw [hprod i j hi hj, Nat.mul_comm (segment_at r i), Nat.mul_comm (point_at r i)]
  rw [Nat.mul_comm (segment_at r i), Nat.mul_comm _ (segment_at c j)] at hs
  exact blinker_decision (point_le_segment c j) (segment_le_one c j)
    (segment_cases hrows hr1 hr2 hi) hs

theorem point_mul_segment (r c i j : Nat) :
    point_at r i * segment_at c j =
      if i = r ∧ (j = c - 1 ∨ j = c ∨ j = c + 1) then 1 else 0 := by
  unfold point_at segment_at
  split_ifs <;> simp_all

theorem segment_mul_point (r c i j : Nat) :
    segment_at r i * point_at c j =
      if j = c ∧ (i = r - 1 ∨ i = r ∨ i = r + 1) then 1 else 0 := by
  unfold point_at segment_at
  split_ifs <;> simp_all


theorem all_below_iff (f : Nat → Bool) (n : Nat) :
    all_below f n = true ↔ ∀ k, k < n → f k = true := by
  induction n with
  | zero => simp [all_below]
  | succ n ih =>
    simp only [all_below, Bool.and_eq_true, ih]
    constructor
    · rintro ⟨h1, h2⟩ k hk
      rcases Nat.lt_succ_iff_lt_or_eq.mp hk with h | h
      · exact h2 k h
      · rw [h]; exact h1
    · intro h
      exact ⟨h n (Nat.lt_succ_self n), fun k hk => h k (Nat.lt_succ_of_lt hk)⟩

theorem beq_false_of_ne {a b : Nat} (h : a ≠ b) : Nat.beq a b = false := by
  cases hb : Nat.beq a b with
  | false => rfl
  | true => exact absurd (Nat.eq_of_beq_eq_true hb) h

theorem alive_in_eq (cells : List (Nat × Nat)) (i j : Nat) :
    alive_in cells i j = if (i, j) ∈ cells then 1 else 0 := by
  induction cells with
  | nil => simp [alive_in]
  | cons p ps ih =>
    by_cases h : p.1 = i ∧ p.2 = j
    · have hp : p = (i, j) := Prod.ext h.1 h.2
      simp [alive_in, h.1, h.2, hp]
    · have hp : ¬ (i, j) = p := by
        intro he
        apply h
        rw [← he]
        exact ⟨rfl, rfl⟩
      have hb : (Nat.beq p.1 i && Nat.beq p.2 j) = false := by
        rw [Bool.and_eq_false_iff]
        by_cases h1 : p.1 = i
        · right
          have h2 : ¬ p.2 = j := fun h2 => h ⟨h1, h2⟩
          exact beq_false_of_ne h2
        · left
          exact beq_false_of_ne h1
      simp [alive_in, hb, ih, List.mem_cons, hp]

theorem cells_inside_iff (rows cols : Nat) (cells : List (Nat × Nat)) :
    cells_inside rows cols cells = true ↔ ∀ p ∈ cells, p.1 < rows ∧ p.2 < cols := by
  induction cells with
  | nil => simp [cells_inside]
  | cons p ps ih =>
    simp only [cells_inside, Bool.and_eq_true, ih, List.mem_cons, forall_eq_or_imp,
      Nat.blt_eq]

/-- On a grid whose cells are those of a list, the value `update()` writes is the decision
computed from the list. -/
theorem new_value_of_cells (g : board_game) (cells : List (Nat × Nat))
    (hcell : ∀ i j, i < g.nb_rows → j < g.nb_cols → cell g i j = alive_in cells i j)
    {i j : Nat} (hi : i < g.nb_rows) (hj : j < g.nb_cols) :
    new_value g i j =
      next_state (alive_in cells i j) (count_in cells g.nb_rows g.nb_cols i j) := by
  have hr : 0 < g.nb_rows := by omega
  have hc : 0 < g.nb_cols := by omega
  have h1 := Nat.mod_lt (j + g.nb_cols - 1) hc
  have h2 := Nat.mod_lt (j + 1) hc
  have h3 := Nat.mod_lt (i + g.nb_rows - 1) hr
  have h4 := Nat.mod_lt (i + 1) hr
  simp only [new_value, nb_count, cells_total, neighbour_coords, wrap_of, List.map_cons,
    List.map_nil, List.sum_cons, List.sum_nil, count_in]
  rw [hcell _ _ hi hj, hcell _ _ h3 h1, hcell _ _ h3 hj, hcell _ _ h3 h2, hcell _ _ hi h1,
    hcell _ _ hi h2, hcell _ _ h4 h1, hcell _ _ h4 hj, hcell _ _ h4 h2]
  simp only [Nat.add_zero, Nat.add_assoc]

/-- A successful check gives one generation: `update()` takes the grid constructed from
`cells` to the grid constructed from `cells2`. -/
theorem step_check_sound (rows cols : Nat) (cells cells2 : List (Nat × Nat))
    (hsz : rows * cols < size_range)
    (h1 : cells_inside rows cols cells = true) (h2 : cells_inside rows cols cells2 = true)
    (hstep : step_check rows cols cells cells2 = true) :
    ∃ g g2, board_game.construct rows cols cells = Except.ok g ∧
      board_game.construct rows cols cells2 = Except.ok g2 ∧ g.update = Except.ok g2 := by
  obtain ⟨g, hg, hr, hc, hl, hcell⟩ :=
    construct_ok rows cols cells hsz ((cells_inside_iff rows cols cells).mp h1)
  obtain ⟨g2, hg2, hr2, hc2, hl2, hcell2⟩ :=
    construct_ok rows cols cells2 hsz ((cells_inside_iff rows cols cells2).mp h2)
  have hlen : g.m_board.length = g.nb_rows * g.nb_cols := by rw [hl, hr, hc]
  refine ⟨g, g2, hg, hg2, ?_⟩
  rw [update_eq g hlen]
  congr 1
  apply board_ext
  · exact hr.trans hr2.symm
  · exact hc.trans hc2.symm
  · exact next_board_length g
  · rw [hl2, hr2, hc2]
  · intro i j hi hj
    have hi1 : i < g.nb_rows := hi
    have hj1 : j < g.nb_cols := hj
    have hcellg : ∀ i j, i < g.nb_rows → j < g.nb_cols → cell g i j = alive_in cells i j := by
      intro i j hi hj
      rw [alive_in_eq]
      exact hcell i j (by rw [← hr]; exact hi) (by rw [← hc]; exact hj)
    rw [cell_next_board g hi1 hj1, new_value_of_cells g cells hcellg hi1 hj1,
      hcell2 i j (by rw [← hr]; exact hi1) (by rw [← hc]; exact hj1), ← alive_in_eq, hr, hc]
    unfold step_check at hstep
    rw [all_below_iff] at hstep
    have hrow := hstep i (by rw [← hr]; exact hi1)
    rw [all_below_iff] at hrow
    have := hrow j (by rw [← hc]; exact hj1)
    exact Nat.eq_of_beq_eq_true this



theorem shift_source_lt {n : Nat} (hn : 0 < n) (a x : Nat) : shift_source n a x < n :=
  Nat.mod_lt _ hn

theorem shift_source_prev {n : Nat} (hn : 0 < n) (a x : Nat) :
    shift_source n a ((x + n - 1) % n) = (shift_source n a x + n - 1) % n := by
  unfold shift_source
  have e1 : x + n - 1 = x + (n - 1) := by omega
  have e2 : (x + (n - a % n)) % n + n - 1 = (x + (n - a % n)) % n + (n - 1) := by omega
  rw [e1, e2, Nat.mod_add_mod, Nat.mod_add_mod]
  congr 1
  omega

theorem shift_source_next (n a x : Nat) :
    shift_source n a ((x + 1) % n) = (shift_source n a x + 1) % n := by
  unfold shift_source
  rw [Nat.mod_add_mod, Nat.mod_add_mod]
  congr 1
  omega

theorem shift_amount_mod {n : Nat} (hn : 0 < n) (a : Nat) : (n - a % n + a) % n = 0 := by
  have h1 := Nat.div_add_mod a n
  have h2 := Nat.mod_lt a hn
  have h3 : n - a % n + a = n + n * (a / n) := by omega
  rw [h3, Nat.add_mul_mod_self_left, Nat.mod_self]

theorem shift_source_modEq {n : Nat} (hn : 0 < n) (a x : Nat) :
    Nat.ModEq n (shift_source n a x + a) x := by
  unfold shift_source
  have h1 : Nat.ModEq n ((x + (n - a % n)) % n + a) (x + (n - a % n) + a) :=
    Nat.ModEq.add_right a (Nat.mod_modEq _ _)
  have h2 : Nat.ModEq n (x + (n - a % n) + a) x := by
    unfold Nat.ModEq
    rw [Nat.add_assoc, Nat.add_mod, shift_amount_mod hn a, Nat.add_zero, Nat.mod_mod]
  exact h1.trans h2

theorem shift_source_add {n : Nat} (hn : 0 < n) (a b x : Nat) :
    shift_source n a (shift_source n b x) = shift_source n (a + b) x := by
  have h1 : Nat.ModEq n (shift_source n a (shift_source n b x) + (a + b)) x := by
    have ha := shift_source_modEq hn a (shift_source n b x)
    have hb := shift_source_modEq hn b x
    have h := (Nat.ModEq.add_right b ha).trans hb
    rw [Nat.add_assoc] at h
    exact h
  have h2 : Nat.ModEq n (shift_source n (a + b) x + (a + b)) x :=
    shift_source_modEq hn (a + b) x
  have h3 : Nat.ModEq n (shift_source n a (shift_source n b x)) (shift_source n (a + b) x) :=
    Nat.ModEq.add_right_cancel' (a + b) (h1.trans h2.symm)
  unfold Nat.ModEq at h3
  rw [Nat.mod_eq_of_lt (shift_source_lt hn _ _), Nat.mod_eq_of_lt (shift_source_lt hn _ _)] at h3
  exact h3

theorem shift_source_full {n a x : Nat} (hx : x < n) (ha : a % n = 0) :
    shift_source n a x = x := by
  unfold shift_source
  rw [ha, Nat.sub_zero, Nat.add_mod_right]
  exact Nat.mod_eq_of_lt hx


theorem shift_board_length (a b : Nat) (g : board_game) :
    (shift_board a b g).m_board.length = g.nb_rows * g.nb_cols := by
  simp [shift_board]

theorem cell_shift_board (a b : Nat) (g : board_game) {i j : Nat}
    (hi : i < g.nb_rows) (hj : j < g.nb_cols) :
    cell (shift_board a b g) i j =
      cell g (shift_source g.nb_rows a i) (shift_source g.nb_cols b j) := by
  have hidx := index_lt hi hj
  have hc : 0 < g.nb_cols := by omega
  have h1 : (i * g.nb_cols + j) / g.nb_cols = i := by
    rw [Nat.mul_comm, Nat.mul_add_div hc, Nat.div_eq_of_lt hj, Nat.add_zero]
  have h2 : (i * g.nb_cols + j) % g.nb_cols = j := by
    rw [Nat.mul_comm, Nat.mul_add_mod, Nat.mod_eq_of_lt hj]
  have h : cell (shift_board a b g) i j =
      ((List.range (g.nb_rows * g.nb_cols)).map (fun k =>
        cell g (shift_source g.nb_rows a (k / g.nb_cols))
          (shift_source g.nb_cols b (k % g.nb_cols)))).getD (i * g.nb_cols + j) 0 := rfl
  rw [h]
  simp [List.getElem?_range hidx, h1, h2]

/-- The value `update()` writes at `(i,j)` on the shifted grid is the value it writes on the
grid itself at the cell shifted onto `(i,j)`. -/
theorem new_value_shift_board (a b : Nat) (g : board_game) {i j : Nat}
    (hi : i < g.nb_rows) (hj : j < g.nb_cols) :
    new_value (shift_board a b g) i j =
      new_value g (shift_source g.nb_rows a i) (shift_source g.nb_cols b j) := by
  have hr : 0 < g.nb_rows := by omega
  have hc : 0 < g.nb_cols := by omega
  have h1 := Nat.mod_lt (j + g.nb_cols - 1) hc
  have h2 := Nat.mod_lt (j + 1) hc
  have h3 := Nat.mod_lt (i + g.nb_rows - 1) hr
  have h4 := Nat.mod_lt (i + 1) hr
  have hrows : (shift_board a b g).nb_rows = g.nb_rows := rfl
  have hcols : (shift_board a b g).nb_cols = g.nb_cols := rfl
  simp only [new_value, nb_count, cells_total, neighbour_coords, wrap_of, List.map_cons,
    List.map_nil, List.sum_cons, List.sum_nil, hrows, hcols]
  rw [cell_shift_board a b g hi hj, cell_shift_board a b g h3 h1, cell_shift_board a b g h3 hj,
    cell_shift_board a b g h3 h2, cell_shift_board a b g hi h1, cell_shift_board a b g hi h2,
    cell_shift_board a b g h4 h1, cell_shift_board a b g h4 hj, cell_shift_board a b g h4 h2,
    shift_source_prev hr, shift_source_prev hc, shift_source_next, shift_source_next]

/-- Shifting commutes with `update()`. -/
theorem update_shift_board (a b : Nat) (g : board_game) :
    (shift_board a b g).update =
      Except.ok (shift_board a b { g with m_board := next_board g }) := by
  rw [update_eq (shift_board a b g) (shift_board_length a b g)]
  congr 1
  apply board_ext
  · rfl
  · rfl
  · exact next_board_length (shift_board a b g)
  · exact shift_board_length a b { g with m_board := next_board g }
  · intro i j hi hj
    have hi1 : i < g.nb_rows := hi
    have hj1 : j < g.nb_cols := hj
    have hr : 0 < g.nb_rows := by omega
    have hc : 0 < g.nb_cols := by omega
    have hi2 : i < (shift_board a b g).nb_rows := hi
    have hj2 : j < (shift_board a b g).nb_cols := hj
    have hi3 : i < ({ g with m_board := next_board g } : board_game).nb_rows := hi
    have hj3 : j < ({ g with m_board := next_board g } : board_game).nb_cols := hj
    rw [cell_next_board (shift_board a b g) hi2 hj2, new_value_shift_board a b g hi1 hj1,
      cell_shift_board a b { g with m_board := next_board g } hi3 hj3]
    exact (cell_next_board g (shift_source_lt hr a i) (shift_source_lt hc b j)).symm

theorem shift_board_add (a b a2 b2 : Nat) (g : board_game) :
    shift_board a b (shift_board a2 b2 g) = shift_board (a2 + a) (b2 + b) g := by
  apply board_ext
  · rfl
  · rfl
  · exact shift_board_length a b (shift_board a2 b2 g)
  · exact shift_board_length (a2 + a) (b2 + b) g
  · intro i j hi hj
    have hi1 : i < g.nb_rows := hi
    have hj1 : j < g.nb_cols := hj
    have hr : 0 < g.nb_rows := by omega
    have hc : 0 < g.nb_cols := by omega
    have hi2 : i < (shift_board a2 b2 g).nb_rows := hi
    have hj2 : j < (shift_board a2 b2 g).nb_cols := hj
    have hrows : (shift_board a2 b2 g).nb_rows = g.nb_rows := rfl
    have hcols : (shift_board a2 b2 g).nb_cols = g.nb_cols := rfl
    rw [cell_shift_board a b (shift_board a2 b2 g) hi2 hj2, hrows, hcols,
      cell_shift_board a2 b2 g (shift_source_lt hr a i) (shift_source_lt hc b j),
      cell_shift_board (a2 + a) (b2 + b) g hi1 hj1,
      shift_source_add hr, shift_source_add hc]

theorem shift_board_full (a b : Nat) (g : board_game)
    (hlen : g.m_board.length = g.nb_rows * g.nb_cols)
    (ha : a % g.nb_rows = 0) (hb : b % g.nb_cols = 0) : shift_board a b g = g := by
  apply board_ext
  · rfl
  · rfl
  · exact shift_board_length a b g
  · exact hlen
  · intro i j hi hj
    have hi1 : i < g.nb_rows := hi
    have hj1 : j < g.nb_cols := hj
    rw [cell_shift_board a b g hi1 hj1, shift_source_full hi1 ha, shift_source_full hj1 hb]


theorem update_n_add (m n : Nat) (g : board_game) :
    update_n (m + n) g =
      match update_n m g with
      | Except.ok g1 => update_n n g1
      | Except.error e => Except.error e := by
  induction n with
  | zero =>
    simp only [Nat.add_zero, update_n]
    cases update_n m g <;> rfl
  | succ n ih =>
    rw [← Nat.add_assoc]
    simp only [update_n, ih]
    cases update_n m g <;> rfl

/-- Shifting commutes with any number of updates. -/
theorem update_n_shift_board (a b : Nat) (n : Nat) :
    ∀ g g' : board_game, g.m_board.length = g.nb_rows * g.nb_cols →
      update_n n g = Except.ok g' →
      update_n n (shift_board a b g) = Except.ok (shift_board a b g') := by
  induction n with
  | zero =>
    intro g g' _ h
    simp only [update_n, Except.ok.injEq] at h
    rw [← h]; rfl
  | succ n ih =>
    intro g g' hlen h
    obtain ⟨g1, hrun, hr, hc, hl, _⟩ := update_n_spec n g hlen
    have hlen1 : g1.m_board.length = g1.nb_rows * g1.nb_cols := by rw [hl, hr, hc]
    simp only [update_n, hrun, update_eq g1 hlen1, Except.ok.injEq] at h
    simp only [update_n, ih g g1 hlen hrun]
    rw [update_shift_board a b g1, h]

/-- One generation from the grid of `cells`, when the check succeeds. -/
theorem update_of_check {rows cols : Nat} {cells cells2 : List (Nat × Nat)}
    {g g2 : board_game}
    (hg : board_game.construct rows cols cells = Except.ok g)
    (hg2 : board_game.construct rows cols cells2 = Except.ok g2)
    (hsz : rows * cols < size_range)
    (h1 : cells_inside rows cols cells = true) (h2 : cells_inside rows cols cells2 = true)
    (hstep : step_check rows cols cells cells2 = true) : g.update = Except.ok g2 := by
  obtain ⟨a, b, ha, hb, hab⟩ := step_check_sound rows cols cells cells2 hsz h1 h2 hstep
  rw [hg] at ha
  rw [hg2] at hb
  rw [Except.ok.inj ha, Except.ok.inj hb]
  exact hab

/-- Checks that the grid of `cells2` is the grid of `cells` shifted by `(a,b)`. -/
theorem shift_of_check {rows cols a b : Nat} {cells cells2 : List (Nat × Nat)}
    {g g2 : board_game}
    (hg : board_game.construct rows cols cells = Except.ok g)
    (hg2 : board_game.construct rows cols cells2 = Except.ok g2)
    (hsz : rows * cols < size_range)
    (h1 : cells_inside rows cols cells = true) (h2 : cells_inside rows cols cells2 = true)
    (hcheck : all_below (fun i => all_below (fun j =>
      Nat.beq (alive_in cells2 i j)
        (alive_in cells (shift_source rows a i) (shift_source cols b j))) cols) rows = true) :
    g2 = shift_board a b g := by
  obtain ⟨g', hg', hr, hc, hl, hcell⟩ :=
    construct_ok rows cols cells hsz ((cells_inside_iff rows cols cells).mp h1)
  obtain ⟨g2', hg2', hr2, hc2, hl2, hcell2⟩ :=
    construct_ok rows cols cells2 hsz ((cells_inside_iff rows cols cells2).mp h2)
  rw [hg] at hg'
  rw [hg2] at hg2'
  have e1 := Except.ok.inj hg'
  have e2 := Except.ok.inj hg2'
  subst e1
  subst e2
  apply board_ext
  · exact hr2.trans hr.symm
  · exact hc2.trans hc.symm
  · rw [hl2, hr2, hc2]
  · exact shift_board_length a b g
  · intro i j hi hj
    have hi1 : i < rows := by rw [← hr2]; exact hi
    have hj1 : j < cols := by rw [← hc2]; exact hj
    have hi2 : i < g.nb_rows := by rw [hr]; exact hi1
    have hj2 : j < g.nb_cols := by rw [hc]; exact hj1
    have hrp : 0 < rows := by omega
    have hcp : 0 < cols := by omega
    rw [hcell2 i j hi1 hj1, cell_shift_board a b g hi2 hj2, hr, hc,
      hcell _ _ (shift_source_lt hrp a i) (shift_source_lt hcp b j), ← alive_in_eq, ← alive_in_eq]
    rw [all_below_iff] at hcheck
    have hrow := hcheck i hi1
    rw [all_below_iff] at hrow
    exact Nat.eq_of_beq_eq_true (hrow j hj1)


/-- Every fourth generation of a grid that four updates shift by `(1,1)`. -/
theorem shifted_every_four (g : board_game)
    (hlen : g.m_board.length = g.nb_rows * g.nb_cols)
    (h4 : update_n 4 g = Except.ok (shift_board 1 1 g)) :
    ∀ k, update_n (4 * k) g = Except.ok (shift_board k k g) := by
  intro k
  induction k with
  | zero =>
    rw [Nat.mul_zero, shift_board_full 0 0 g hlen (Nat.zero_mod _) (Nat.zero_mod _)]
    rfl
  | succ k ih =>
    rw [Nat.mul_succ, update_n_add, ih]
    simp only []
    rw [update_n_shift_board k k 4 g (shift_board 1 1 g) hlen h4, shift_board_add,
      Nat.add_comm 1 k]

/-- A cell listed in `cells` and dead in the shifted grid of `cells2` tells the two grids
apart. -/
theorem shift_ne_of_check {rows cols a b : Nat} {cells cells2 : List (Nat × Nat)}
    {g g2 : board_game}
    (hg : board_game.construct rows cols cells = Except.ok g)
    (hg2 : board_game.construct rows cols cells2 = Except.ok g2)
    (hsz : rows * cols < size_range)
    (h1 : cells_inside rows cols cells = true) (h2 : cells_inside rows cols cells2 = true)
    (hcheck : differs_shifted rows cols a b cells cells2 = true) :
    shift_board a b g2 ≠ g := by
  have hin1 := (cells_inside_iff rows cols cells).mp h1
  obtain ⟨g', hg', hr, hc, hl, hcell⟩ := construct_ok rows cols cells hsz hin1
  obtain ⟨g2', hg2', hr2, hc2, hl2, hcell2⟩ :=
    construct_ok rows cols cells2 hsz ((cells_inside_iff rows cols cells2).mp h2)
  rw [hg] at hg'
  rw [hg2] at hg2'
  have e1 := Except.ok.inj hg'
  have e2 := Except.ok.inj hg2'
  subst e1
  subst e2
  unfold differs_shifted at hcheck
  rw [List.any_eq_true] at hcheck
  obtain ⟨p, hp, hdead⟩ := hcheck
  have hdead2 := Nat.eq_of_beq_eq_true hdead
  have hpi := (hin1 p hp).1
  have hpj := (hin1 p hp).2
  have hrp : 0 < rows := by omega
  have hcp : 0 < cols := by omega
  intro heq
  have hlive : cell g p.1 p.2 = 1 := by
    rw [hcell p.1 p.2 hpi hpj]
    simp [hp]
  rw [← heq, cell_shift_board a b g2 (by rw [hr2]; exact hpi) (by rw [hc2]; exact hpj),
    hr2, hc2, hcell2 _ _ (shift_source_lt hrp a p.1) (shift_source_lt hcp b p.2),
    ← alive_in_eq, hdead2] at hlive
  exact absurd hlive (by decide)

/-- The generation `4*k+r` of a grid that four updates shift by `(1,1)` is the generation
`r` shifted by `(k,k)`. -/
theorem shifted_orbit (g gr : board_game) (r : Nat)
    (hlen : g.m_board.length = g.nb_rows * g.nb_cols)
    (h4 : update_n 4 g = Except.ok (shift_board 1 1 g))
    (hr : update_n r g = Except.ok gr) (k : Nat) :
    update_n (4 * k + r) g = Except.ok (shift_board k k gr) := by
  rw [update_n_add, shifted_every_four g hlen h4 k]
  exact update_n_shift_board k k r g gr hlen hr


/-- The number of the three wrapped positions around `x` lying on the pair `r`, `r+1`. -/
theorem pair_triple {n r x : Nat} (hn : 4 ≤ n) (hr : r + 1 < n) (hx : x < n) :
    (pair_at r x = 1 ∧
      pair_at r ((x + n - 1) % n) + pair_at r x + pair_at r ((x + 1) % n) = 2) ∨
    (pair_at r x = 0 ∧
      pair_at r ((x + n - 1) % n) + pair_at r x + pair_at r ((x + 1) % n) ≤ 1) := by
  have hl := wrap_prev_cases hx
  have hu := wrap_next_cases hx
  generalize (x + n - 1) % n = l at hl
  generalize (x + 1) % n = u at hu
  unfold pair_at
  split_ifs <;> omega

/-- The decision for a cell of a grid holding one 2x2 block, from the row and column
profiles `a`, `b`, their triple sums `A`, `B` and the neighbour sum `s`. -/
theorem block_decision {a A b B s : Nat}
    (ha : (a = 1 ∧ A = 2) ∨ (a = 0 ∧ A ≤ 1)) (hb : (b = 1 ∧ B = 2) ∨ (b = 0 ∧ B ≤ 1))
    (hs : s + a * b = A * B) :
    next_state (a * b) (s % 256) = a * b := by
  rcases ha with ⟨rfl, rfl⟩ | ⟨rfl, hA⟩ <;> rcases hb with ⟨rfl, rfl⟩ | ⟨rfl, hB⟩
  · have : s = 3 := by omega
    subst this; rfl
  · interval_cases B
    · have : s = 0 := by omega
      subst this; rfl
    · have : s = 2 := by omega
      subst this; rfl
  · interval_cases A
    · have : s = 0 := by omega
      subst this; rfl
    · have : s = 2 := by omega
      subst this; rfl
  · interval_cases A <;> interval_cases B <;>
      first
        | (have : s = 0 := by omega
           subst this; rfl)
        | (have : s = 1 := by omega
           subst this; rfl)

theorem pair_mul_pair (r c i j : Nat) :
    pair_at r i * pair_at c j =
      if (i = r ∨ i = r + 1) ∧ (j = c ∨ j = c + 1) then 1 else 0 := by
  unfold pair_at
  split_ifs <;> simp_all


theorem index_div_mod {cols k : Nat} (hc : 0 < cols) {rows : Nat} (hk : k < rows * cols) :
    k / cols < rows ∧ k % cols < cols ∧ k / cols * cols + k % cols = k := by
  refine ⟨?_, Nat.mod_lt _ hc, ?_⟩
  · apply Nat.div_lt_of_lt_mul
    rw [Nat.mul_comm]; exact hk
  · rw [Nat.mul_comm]; exact Nat.div_add_mod k cols

theorem shift_source_target {n : Nat} (hn : 0 < n) (a : Nat) {x : Nat} (hx : x < n) :
    shift_source n a ((x + a) % n) = x := by
  have h1 : Nat.ModEq n (shift_source n a ((x + a) % n) + a) ((x + a) % n) :=
    shift_source_modEq hn a _
  have h2 : Nat.ModEq n ((x + a) % n) (x + a) := Nat.mod_modEq _ _
  have h3 : Nat.ModEq n (shift_source n a ((x + a) % n)) x :=
    Nat.ModEq.add_right_cancel' a (h1.trans h2)
  unfold Nat.ModEq at h3
  rw [Nat.mod_eq_of_lt (shift_source_lt hn _ _), Nat.mod_eq_of_lt hx] at h3
  exact h3


theorem cyclic_diff_cases {n x y : Nat} (hx : x < n) (hy : y < n) :
    (x ≤ y ∧ (y + n - x) % n = y - x) ∨ (y < x ∧ (y + n - x) % n = y + n - x) := by
  by_cases h : x ≤ y
  · left
    refine ⟨h, ?_⟩
    have e : y + n - x = (y - x) + n := by omega
    rw [e, Nat.add_mod_right]
    exact Nat.mod_eq_of_lt (by omega)
  · right
    exact ⟨by omega, Nat.mod_eq_of_lt (by omega)⟩

/-- On a cycle of at least three indices the two wrapped neighbours of `x` differ from `x`
and from each other, and they are exactly the indices at distance 1 from `x`. -/
theorem torus_dist_cases {n x y : Nat} (hn : 3 ≤ n) (hx : x < n) (hy : y < n) :
    (x + n - 1) % n < n ∧ (x + 1) % n < n ∧
    (x + n - 1) % n ≠ x ∧ (x + 1) % n ≠ x ∧ (x + n - 1) % n ≠ (x + 1) % n ∧
    (torus_dist n y x = 0 ↔ y = x) ∧
    (torus_dist n y x = 1 ↔ (y = (x + n - 1) % n ∨ y = (x + 1) % n)) := by
  have hl := wrap_prev_cases hx
  have hu := wrap_next_cases hx
  have h1 := cyclic_diff_cases hx hy
  have h2 := cyclic_diff_cases hy hx
  unfold torus_dist
  generalize (x + n - 1) % n = l at hl
  generalize (x + 1) % n = u at hu
  generalize (y + n - x) % n = d1 at h1
  generalize (x + n - y) % n = d2 at h2
  omega


theorem moore_iff {b i u l j r p1 p2 d1 d2 : Nat}
    (hbi : b ≠ i) (hui : u ≠ i) (hlj : l ≠ j) (hrj : r ≠ j)
    (hr0 : d1 = 0 ↔ p1 = i) (hr1 : d1 = 1 ↔ (p1 = b ∨ p1 = u))
    (hc0 : d2 = 0 ↔ p2 = j) (hc1 : d2 = 1 ↔ (p2 = l ∨ p2 = r)) :
    (p1 = b ∧ p2 = l ∨ p1 = b ∧ p2 = j ∨ p1 = b ∧ p2 = r ∨ p1 = i ∧ p2 = l ∨
      p1 = i ∧ p2 = r ∨ p1 = u ∧ p2 = l ∨ p1 = u ∧ p2 = j ∨ p1 = u ∧ p2 = r) ↔
    max d1 d2 = 1 := by
  have k1 : (d1 = 0 ∧ p1 = i) ∨ (d1 = 1 ∧ (p1 = b ∨ p1 = u)) ∨
      (2 ≤ d1 ∧ p1 ≠ i ∧ p1 ≠ b ∧ p1 ≠ u) := by
    rcases Nat.lt_or_ge d1 2 with h | h
    · interval_cases d1
      · exact Or.inl ⟨rfl, hr0.mp rfl⟩
      · exact Or.inr (Or.inl ⟨rfl, hr1.mp rfl⟩)
    · refine Or.inr (Or.inr ⟨h, fun e => ?_, fun e => ?_, fun e => ?_⟩)
      · have := hr0.mpr e; omega
      · have := hr1.mpr (Or.inl e); omega
      · have := hr1.mpr (Or.inr e); omega
  have k2 : (d2 = 0 ∧ p2 = j) ∨ (d2 = 1 ∧ (p2 = l ∨ p2 = r)) ∨
      (2 ≤ d2 ∧ p2 ≠ j ∧ p2 ≠ l ∧ p2 ≠ r) := by
    rcases Nat.lt_or_ge d2 2 with h | h
    · interval_cases d2
      · exact Or.inl ⟨rfl, hc0.mp rfl⟩
      · exact Or.inr (Or.inl ⟨rfl, hc1.mp rfl⟩)
    · refine Or.inr (Or.inr ⟨h, fun e => ?_, fun e => ?_, fun e => ?_⟩)
      · have := hc0.mpr e; omega
      · have := hc1.mpr (Or.inl e); omega
      · have := hc1.mpr (Or.inr e); omega
  clear hr0 hr1 hc0 hc1
  rcases k1 with ⟨e1, a1⟩ | ⟨e1, a1⟩ | ⟨e1, n1, n2, n3⟩ <;>
    rcases k2 with ⟨e2, a2⟩ | ⟨e2, a2⟩ | ⟨e2, m1, m2, m3⟩
  · constructor
    · intro h
      rcases h with ⟨x, y⟩ | ⟨x, y⟩ | ⟨x, y⟩ | ⟨x, y⟩ | ⟨x, y⟩ | ⟨x, y⟩ | ⟨x, y⟩ | ⟨x, y⟩ <;>
        omega
    · intro h; exfalso; omega
  · constructor
    · intro _; omega
    · intro _
      rcases a2 with y | y <;> simp [a1, y]
  · constructor
    · intro h
      rcases h with ⟨x, y⟩ | ⟨x, y⟩ | ⟨x, y⟩ | ⟨x, y⟩ | ⟨x, y⟩ | ⟨x, y⟩ | ⟨x, y⟩ | ⟨x, y⟩ <;>
        omega
    · intro h; exfalso; omega
  · constructor
    · intro _; omega
    · intro _
      rcases a1 with x | x <;> simp [a2, x]
  · constructor
    · intro _; omega
    · intro _
      rcases a1 with x | x <;> rcases a2 with y | y <;> simp [x, y]
  · constructor
    · intro h
      rcases h with ⟨x, y⟩ | ⟨x, y⟩ | ⟨x, y⟩ | ⟨x, y⟩ | ⟨x, y⟩ | ⟨x, y⟩ | ⟨x, y⟩ | ⟨x, y⟩ <;>
        omega
    · intro h; exfalso; omega
  · constructor
    · intro h
      rcases h with ⟨x, y⟩ | ⟨x, y⟩ | ⟨x, y⟩ | ⟨x, y⟩ | ⟨x, y⟩ | ⟨x, y⟩ | ⟨x, y⟩ | ⟨x, y⟩ <;>
        omega
    · intro h; exfalso; omega
  · constructor
    · intro h
      rcases h with ⟨x, y⟩ | ⟨x, y⟩ | ⟨x, y⟩ | ⟨x, y⟩ | ⟨x, y⟩ | ⟨x, y⟩ | ⟨x, y⟩ | ⟨x, y⟩ <;>
        omega
    · intro h; exfalso; omega
  · constructor
    · intro h
      rcases h with ⟨x, y⟩ | ⟨x, y⟩ | ⟨x, y⟩ | ⟨x, y⟩ | ⟨x, y⟩ | ⟨x, y⟩ | ⟨x, y⟩ | ⟨x, y⟩ <;>
        omega
    · intro h; exfalso; omega


theorem mem_at_distance_one {rows cols i j : Nat} (p : Nat × Nat) :
    p ∈ at_distance_one rows cols i j ↔
      p.1 < rows ∧ p.2 < cols ∧ max (torus_dist rows p.1 i) (torus_dist cols p.2 j) = 1 := by
  obtain ⟨p1, p2⟩ := p
  unfold at_distance_one
  rw [List.mem_filter, List.pair_mem_product, List.mem_range, List.mem_range]
  simp only [decide_eq_true_eq]
  tauto

theorem at_distance_one_nodup (rows cols i j : Nat) :
    (at_distance_one rows cols i j).Nodup := by
  unfold at_distance_one
  apply List.Nodup.filter
  exact List.Nodup.product (List.nodup_range rows) (List.nodup_range cols)

/-- On a grid at least three wide and three high the eight coordinates read for `(i,j)`
are pairwise distinct, differ from `(i,j)`, and are the coordinates at distance 1. -/
theorem neighbour_coords_distance (g : board_game) {i j : Nat}
    (hrows : 3 ≤ g.nb_rows) (hcols : 3 ≤ g.nb_cols) (hi : i < g.nb_rows) (hj : j < g.nb_cols) :
    (neighbour_coords (wrap_of g i j) i j).Nodup ∧
    (i, j) ∉ neighbour_coords (wrap_of g i j) i j ∧
    ∀ p, p ∈ neighbour_coords (wrap_of g i j) i j ↔
      p ∈ at_distance_one g.nb_rows g.nb_cols i j := by
  obtain ⟨hb, hu, hbi, hui, hbu, _, _⟩ := torus_dist_cases hrows hi hi
  obtain ⟨hl, hr, hlj, hrj, hlr, _, _⟩ := torus_dist_cases hcols hj hj
  have hmem : ∀ p : Nat × Nat, p ∈ neighbour_coords (wrap_of g i j) i j →
      p.1 < g.nb_rows ∧ p.2 < g.nb_cols := neighbour_coords_lt g hi hj
  refine ⟨?_, ?_, fun p => ?_⟩
  · simp only [neighbour_coords, wrap_of, List.nodup_cons, List.mem_cons, List.mem_singleton,
      Prod.mk.injEq, List.not_mem_nil, List.nodup_nil, not_false_eq_true, and_true, not_or]
    generalize (i + g.nb_rows - 1) % g.nb_rows = b at hbi hbu
    generalize (i + 1) % g.nb_rows = u at hui hbu
    generalize (j + g.nb_cols - 1) % g.nb_cols = l at hlj hlr
    generalize (j + 1) % g.nb_cols = r at hrj hlr
    clear hmem
    omega
  · simp only [neighbour_coords, wrap_of, List.mem_cons, List.mem_singleton, Prod.mk.injEq,
      List.not_mem_nil, or_false, not_or]
    generalize (i + g.nb_rows - 1) % g.nb_rows = b at hbi hbu
    generalize (i + 1) % g.nb_rows = u at hui hbu
    generalize (j + g.nb_cols - 1) % g.nb_cols = l at hlj hlr
    generalize (j + 1) % g.nb_cols = r at hrj hlr
    clear hmem
    omega
  · rw [mem_at_distance_one]
    constructor
    · intro hp
      obtain ⟨h1, h2⟩ := hmem p hp
      obtain ⟨_, _, _, _, _, hr0, hr1⟩ := torus_dist_cases hrows hi h1
      obtain ⟨_, _, _, _, _, hc0, hc1⟩ := torus_dist_cases hcols hj h2
      refine ⟨h1, h2, (moore_iff hbi hui hlj hrj hr0 hr1 hc0 hc1).mp ?_⟩
      obtain ⟨p1, p2⟩ := p
      simpa only [neighbour_coords, wrap_of, List.mem_cons, List.mem_singleton,
        Prod.mk.injEq, List.not_mem_nil, or_false] using hp
    · rintro ⟨h1, h2, hd⟩
      obtain ⟨_, _, _, _, _, hr0, hr1⟩ := torus_dist_cases hrows hi h1
      obtain ⟨_, _, _, _, _, hc0, hc1⟩ := torus_dist_cases hcols hj h2
      have := (moore_iff hbi hui hlj hrj hr0 hr1 hc0 hc1).mpr hd
      obtain ⟨p1, p2⟩ := p
      simpa only [neighbour_coords, wrap_of, List.mem_cons, List.mem_singleton,
        Prod.mk.injEq, List.not_mem_nil, or_false] using this


/-- For cells `0` or `1` the sum of the values at coordinates inside the extent is the
number of those coordinates holding a living cell. -/
theorem cells_total_eq_count (g : board_game)
    (hlen : g.m_board.length = g.nb_rows * g.nb_cols)
    (hbin : ∀ v ∈ g.m_board, v = 0 ∨ v = 1) (ps : List (Nat × Nat))
    (hps : ∀ p ∈ ps, p.1 < g.nb_rows ∧ p.2 < g.nb_cols) :
    cells_total g ps = (ps.filter (is_alive g)).length := by
  induction ps with
  | nil => rfl
  | cons p ps ih =>
    have hp := hps p (List.mem_cons_self _ _)
    have ih1 := ih (fun q hq => hps q (List.mem_cons_of_mem _ hq))
    have hle := cell_le_one g hbin p.1 p.2
    have halive : is_alive g p = (cell g p.1 p.2 == 1) := by
      unfold is_alive
      rw [get_of_lt g hlen hp.1 hp.2]
    simp only [cells_total, List.map_cons, List.sum_cons] at ih1 ⊢
    rw [ih1, List.filter_cons, halive]
    have hcases : cell g p.1 p.2 = 0 ∨ cell g p.1 p.2 = 1 := by omega
    rcases hcases with h | h
    · simp [h]
    · simp [h]
      omega

/-! ## Properties of the update rule, the constructor and the accessor -/

/-- C1: on a grid with at least one row and one column, a buffer of `nb_rows*nb_cols`
cells and every cell `0` or `1`, `update()` returns, and every cell `(i,j)` of the new
generation is the decision table of the specification applied to the previous value
`old` at `(i,j)` and to the sum `n` of the previous values at the eight coordinates
`{down,i,up} × {left,j,right}` without `(i,j)`, with the wrapped indices of the
specification; it is `1` exactly when `old = 1` and `n` is 2 or 3, or `old = 0` and
`n = 3`.  Both `old` and `n` are read from the previous generation only. -/
theorem update_applies_rule (g : board_game)
    (hr : 1 ≤ g.nb_rows) (hc : 1 ≤ g.nb_cols)
    (hlen : g.m_board.length = g.nb_rows * g.nb_cols)
    (hbin : ∀ v ∈ g.m_board, v = 0 ∨ v = 1) :
    ∃ g', g.update = Except.ok g' ∧
      ∀ i j, i < g.nb_rows → j < g.nb_cols →
        ∃ old n, g.get i j = Except.ok old ∧
          sum_cells g (spec_neighbours g.nb_rows g.nb_cols i j) = Except.ok n ∧
          g'.get i j = Except.ok (spec_table old n) ∧
          (spec_table old n = 1 ↔ (old = 1 ∧ (n = 2 ∨ n = 3)) ∨ (old = 0 ∧ n = 3)) := by
  refine ⟨{ g with m_board := next_board g }, update_eq g hlen, fun i j hi hj => ?_⟩
  have hn := neighbour_coords_lt g hi hj
  have hsum := sum_cells_of_lt g hlen _ hn
  have hle := cells_total_le g hbin (neighbour_coords (wrap_of g i j) i j)
  have hold := cell_le_one g hbin i j
  refine ⟨cell g i j, cells_total g (neighbour_coords (wrap_of g i j) i j),
    get_of_lt g hlen hi hj, ?_, ?_, ?_⟩
  · rw [spec_neighbours_eq g hr hc]; exact hsum
  · have hget := get_of_lt { g with m_board := next_board g } (next_board_length g) hi hj
    rw [hget, cell_next_board g hi hj, new_value, nb_count, next_state_eq_spec_table]
    have hlt : cells_total g (neighbour_coords (wrap_of g i j) i j) % 256 =
        cells_total g (neighbour_coords (wrap_of g i j) i j) := by
      apply Nat.mod_eq_of_lt
      have h8 : (neighbour_coords (wrap_of g i j) i j).length = 8 := rfl
      omega
    rw [hlt]
  · exact spec_table_iff hold _

/-- Witness of C1: the 3x3 grid with a full middle column. -/
theorem update_applies_rule_witness :
    (1 ≤ 3 ∧ (([0, 1, 0, 0, 1, 0, 0, 1, 0] : List Nat).length = 3 * 3) ∧
      ∀ v ∈ ([0, 1, 0, 0, 1, 0, 0, 1, 0] : List Nat), v = 0 ∨ v = 1) ∧
    ∃ g', (board_game.mk 3 3 [0, 1, 0, 0, 1, 0, 0, 1, 0]).update = Except.ok g' ∧
      ∀ i j, i < 3 → j < 3 →
        ∃ old n, (board_game.mk 3 3 [0, 1, 0, 0, 1, 0, 0, 1, 0]).get i j = Except.ok old ∧
          sum_cells (board_game.mk 3 3 [0, 1, 0, 0, 1, 0, 0, 1, 0])
            (spec_neighbours 3 3 i j) = Except.ok n ∧
          g'.get i j = Except.ok (spec_table old n) ∧
          (spec_table old n = 1 ↔ (old = 1 ∧ (n = 2 ∨ n = 3)) ∨ (old = 0 ∧ n = 3)) :=
  ⟨⟨by decide, by decide, by decide⟩,
    update_applies_rule (board_game.mk 3 3 [0, 1, 0, 0, 1, 0, 0, 1, 0])
      (by decide) (by decide) (by decide) (by decide)⟩

/-- C2, as stated, fails: for `rows = 2^63` and `cols = 2` the product `nb_rows*nb_cols`
is `0` in `size_t`, the buffer is empty, and marking the pair `(0,0)`, which lies inside
the extent, is a write outside the buffer: the constructor returns no grid. -/
theorem construct_overflow_returns_no_grid :
    (0 < 2 ^ 63 ∧ 0 < 2 ∧ ∀ p ∈ [((0 : Nat), (0 : Nat))], p.1 < 2 ^ 63 ∧ p.2 < 2) ∧
      board_game.construct (2 ^ 63) 2 [(0, 0)] = Except.error Fault.out_of_bounds :=
  ⟨⟨by decide, by decide, by decide⟩, rfl⟩

/-- C2, amended: for `rows > 0`, `cols > 0` with `rows*cols < 2^64`, so that the product
is a `size_t`, and pairs all inside the extent, the constructor returns a grid of extent
`rows x cols` in which `get(i,j)` is `1` when `(i,j)` occurs among the pairs and `0`
otherwise, for every `(i,j)` inside the extent. -/
theorem construct_marks_listed (rows cols : Nat) (cells : List (Nat × Nat))
    (_hr : 0 < rows) (_hc : 0 < cols) (hsz : rows * cols < 2 ^ 64)
    (hcells : ∀ p ∈ cells, p.1 < rows ∧ p.2 < cols) :
    ∃ g, board_game.construct rows cols cells = Except.ok g ∧
      g.nb_rows = rows ∧ g.nb_cols = cols ∧
      ∀ i j, i < rows → j < cols →
        g.get i j = Except.ok (if (i, j) ∈ cells then 1 else 0) := by
  obtain ⟨g, hrun, hr, hc, hl, hcell⟩ := construct_ok rows cols cells hsz hcells
  refine ⟨g, hrun, hr, hc, fun i j hi hj => ?_⟩
  rw [get_of_lt g (by rw [hl, hr, hc]) (by rw [hr]; exact hi) (by rw [hc]; exact hj),
    hcell i j hi hj]

/-- Witness of the amended C2: the glider on a 4x5 grid. -/
theorem construct_marks_listed_witness :
    (0 < 4 ∧ 0 < 5 ∧ 4 * 5 < 2 ^ 64 ∧
      ∀ p ∈ [((0 : Nat), (1 : Nat)), (1, 2), (2, 0), (2, 1), (2, 2)], p.1 < 4 ∧ p.2 < 5) ∧
    ∃ g, board_game.construct 4 5 [(0, 1), (1, 2), (2, 0), (2, 1), (2, 2)] = Except.ok g ∧
      g.nb_rows = 4 ∧ g.nb_cols = 5 ∧
      ∀ i j, i < 4 → j < 5 →
        g.get i j =
          Except.ok (if (i, j) ∈ [((0 : Nat), (1 : Nat)), (1, 2), (2, 0), (2, 1), (2, 2)]
            then 1 else 0) :=
  ⟨⟨by decide, by decide, by decide, by decide⟩,
    construct_marks_listed 4 5 [(0, 1), (1, 2), (2, 0), (2, 1), (2, 2)]
      (by decide) (by decide) (by decide) (by decide)⟩

/-- C3, as stated, fails: on a 2x2 grid the coordinate `(0, cols) = (0,2)` is not rejected;
the constructor returns a grid, in which the cell `(1,0)` has been marked alive.  Nor is
the coordinate `(2^63, 0)`, whose index `2^63*2` is `0` in `size_t`: the constructor
returns a grid in which the cell `(0,0)` has been marked alive. -/
theorem construct_accepts_column_past_extent :
    board_game.construct 2 2 [(0, 2)] = Except.ok (board_game.mk 2 2 [0, 0, 1, 0]) ∧
      (board_game.mk 2 2 [0, 0, 1, 0]).get 1 0 = Except.ok 1 ∧
      board_game.construct 2 2 [(2 ^ 63, 0)] = Except.ok (board_game.mk 2 2 [1, 0, 0, 0]) :=
  ⟨rfl, rfl, rfl⟩

/-- C3, amended: the constructor checks no coordinate.  A listed pair `(row, col)` is
written at the index `row*cols+col` computed in `size_t`, that is modulo `2^64`, into a
buffer of `rows*cols` cells, the product computed in `size_t` too.  The constructor ends
in the out-of-bounds fault, without a grid, exactly when the index of some listed pair
is not below the size of the buffer; the pair `(rows, 0)` always is such a pair.  When
the index of every listed pair is below the size of the buffer it returns a grid in
which exactly the slots at the indices of the listed pairs hold `1`, whether the pairs lie
inside the extent or not. -/
theorem construct_fault_iff (rows cols : Nat) (cells : List (Nat × Nat)) :
    (board_game.construct rows cols cells = Except.error Fault.out_of_bounds ↔
      ∃ p ∈ cells, (rows * cols) % size_range ≤ (p.1 * cols + p.2) % size_range) ∧
    ((rows, 0) ∈ cells →
      board_game.construct rows cols cells = Except.error Fault.out_of_bounds) ∧
    ((∀ p ∈ cells, (p.1 * cols + p.2) % size_range < (rows * cols) % size_range) →
      ∃ g, board_game.construct rows cols cells = Except.ok g ∧
        g.nb_rows = rows ∧ g.nb_cols = cols ∧
        g.m_board.length = (rows * cols) % size_range ∧
        ∀ idx, idx < (rows * cols) % size_range →
          g.m_board[idx]? =
            some (if ∃ p ∈ cells, (p.1 * cols + p.2) % size_range = idx then 1 else 0)) := by
  have hfault : (∃ p ∈ cells, (rows * cols) % size_range ≤ (p.1 * cols + p.2) % size_range) →
      board_game.construct rows cols cells = Except.error Fault.out_of_bounds := by
    intro h
    apply mark_cells_fault
    obtain ⟨p, hp, hge⟩ := h
    refine ⟨p, hp, ?_⟩
    rw [slot_of_initial]
    simpa using hge
  have hok : (∀ p ∈ cells, (p.1 * cols + p.2) % size_range < (rows * cols) % size_range) →
      ∃ g, board_game.construct rows cols cells = Except.ok g ∧
        g.nb_rows = rows ∧ g.nb_cols = cols ∧
        g.m_board.length = (rows * cols) % size_range ∧
        ∀ idx, idx < (rows * cols) % size_range →
          g.m_board[idx]? =
            some (if ∃ p ∈ cells, (p.1 * cols + p.2) % size_range = idx then 1 else 0) := by
    intro h
    obtain ⟨g, hrun, hr, hc, hl, hget⟩ :=
      mark_cells_ok cells
        (board_game.mk rows cols (List.replicate ((rows * cols) % size_range) 0))
        (fun p hp => by
          rw [slot_of_initial]
          simpa using h p hp)
    refine ⟨g, hrun, hr, hc, by simpa using hl, fun idx hidx => ?_⟩
    rw [hget idx]
    simp only [slot_of_initial, List.getElem?_replicate, hidx, if_true]
    split <;> rfl
  refine ⟨⟨fun h => ?_, hfault⟩, fun h => ?_, hok⟩
  · by_contra hno
    have hall : ∀ p ∈ cells,
        (p.1 * cols + p.2) % size_range < (rows * cols) % size_range := by
      intro p hp
      by_contra hlt
      exact hno ⟨p, hp, Nat.le_of_not_lt hlt⟩
    obtain ⟨g, hrun, _⟩ := hok hall
    rw [hrun] at h
    cases h
  · exact hfault ⟨(rows, 0), h, by simp⟩

/-- Witness of the amended C3: the pair `(rows, 0) = (2,0)` on a 2x2 grid. -/
theorem construct_fault_iff_witness :
    ((2, 0) ∈ [((2 : Nat), (0 : Nat))]) ∧
      board_game.construct 2 2 [(2, 0)] = Except.error Fault.out_of_bounds :=
  ⟨by decide, (construct_fault_iff 2 2 [(2, 0)]).2.1 (by decide)⟩

/-- C4, as stated, fails: with `rows = 0` and no living cell the constructor returns a
grid, of extent `0 x 5` with an empty buffer, and raises nothing. -/
theorem construct_accepts_zero_rows :
    board_game.construct 0 5 [] = Except.ok (board_game.mk 0 5 []) :=
  rfl

/-- C4, amended: the constructor checks no dimension.  With `rows = 0` or `cols = 0` the
buffer is empty: for an empty list of living cells the constructor returns the grid with
those dimensions and the empty buffer, and for a non-empty list its first write is outside
the buffer, so that it ends in the out-of-bounds fault and produces no grid. -/
theorem construct_zero_dimension (rows cols : Nat) (cells : List (Nat × Nat))
    (hzero : rows = 0 ∨ cols = 0) :
    (cells = [] →
      board_game.construct rows cols cells = Except.ok (board_game.mk rows cols [])) ∧
    (cells ≠ [] →
      board_game.construct rows cols cells = Except.error Fault.out_of_bounds) := by
  have hprod : rows * cols = 0 := by
    rcases hzero with h | h <;> simp [h]
  constructor
  · intro h
    subst h
    simp [board_game.construct, mark_cells, hprod]
  · intro h
    apply mark_cells_fault
    cases cells with
    | nil => exact absurd rfl h
    | cons p rest => exact ⟨p, List.mem_cons_self _ _, by simp [hprod]⟩

/-- Witness of the amended C4: `cols = 0` with one listed cell. -/
theorem construct_zero_dimension_witness :
    ((3 : Nat) = 0 ∨ (0 : Nat) = 0) ∧
      board_game.construct 3 0 [(0, 0)] = Except.error Fault.out_of_bounds :=
  ⟨by decide, (construct_zero_dimension 3 0 [(0, 0)] (by decide)).2 (by decide)⟩

/-- C5, as stated, fails: `rows = 2^63`, `cols = 2` and no living cell are a valid
construction, and the product `nb_rows*nb_cols` is `0` in `size_t`: the constructor returns
a grid whose buffer is empty, not of `rows*cols` cells, and the first `update()` of that
grid reads outside the buffer. -/
theorem construct_overflow_short_buffer :
    (1 ≤ 2 ^ 63 ∧ 1 ≤ 2 ∧ ∀ p ∈ ([] : List (Nat × Nat)), p.1 < 2 ^ 63 ∧ p.2 < 2) ∧
      board_game.construct (2 ^ 63) 2 [] = Except.ok (board_game.mk (2 ^ 63) 2 []) ∧
      (board_game.mk (2 ^ 63) 2 []).m_board.length ≠ 2 ^ 63 * 2 ∧
      (board_game.mk (2 ^ 63) 2 []).update = Except.error Fault.out_of_bounds :=
  ⟨⟨by decide, by decide, by simp⟩, rfl, by decide,
    update_fault_first _ _ (by decide) (by decide) rfl⟩

/-- C5, amended: every call of `update()` that returns leaves `nb_rows`, `nb_cols` and the
size of the buffer unchanged; a grid returned by the constructor has a buffer of
`rows*cols mod 2^64` cells; and after a valid construction (`rows >= 1`, `cols >= 1`, all
pairs inside the extent) with `rows*cols < 2^64` the buffer has exactly `rows*cols` cells,
any number `n` of successive updates returns, and the grid it returns has the same `rows`,
`cols` and a buffer of `rows*cols` cells. -/
theorem buffer_length_invariant (rows cols : Nat) (cells : List (Nat × Nat))
    (_hr : 1 ≤ rows) (_hc : 1 ≤ cols) (hsz : rows * cols < 2 ^ 64)
    (hcells : ∀ p ∈ cells, p.1 < rows ∧ p.2 < cols) :
    (∀ g g' : board_game, g.update = Except.ok g' →
      g'.nb_rows = g.nb_rows ∧ g'.nb_cols = g.nb_cols ∧
        g'.m_board.length = g.m_board.length) ∧
    (∀ (r c : Nat) (l : List (Nat × Nat)) (g : board_game),
      board_game.construct r c l = Except.ok g →
        g.m_board.length = (r * c) % size_range) ∧
    ∃ g, board_game.construct rows cols cells = Except.ok g ∧
      g.nb_rows = rows ∧ g.nb_cols = cols ∧ g.m_board.length = rows * cols ∧
      ∀ n, ∃ g', update_n n g = Except.ok g' ∧
        g'.nb_rows = rows ∧ g'.nb_cols = cols ∧ g'.m_board.length = rows * cols := by
  refine ⟨update_preserves, fun r c l g h => (construct_returns r c l g h).2.2.1, ?_⟩
  obtain ⟨g, hrun, hr, hc, hl, _⟩ := construct_ok rows cols cells hsz hcells
  refine ⟨g, hrun, hr, hc, hl, fun n => ?_⟩
  obtain ⟨g', hn, hr', hc', hl', _⟩ := update_n_spec n g (by rw [hl, hr, hc])
  exact ⟨g', hn, hr'.trans hr, hc'.trans hc, by rw [hl', hr, hc]⟩

/-- Witness of the amended C5: a 3x4 grid with two living cells. -/
theorem buffer_length_invariant_witness :
    (1 ≤ 3 ∧ 1 ≤ 4 ∧ 3 * 4 < 2 ^ 64 ∧
      ∀ p ∈ [((0 : Nat), (1 : Nat)), (2, 3)], p.1 < 3 ∧ p.2 < 4) ∧
    ∃ g, board_game.construct 3 4 [(0, 1), (2, 3)] = Except.ok g ∧
      g.nb_rows = 3 ∧ g.nb_cols = 4 ∧ g.m_board.length = 3 * 4 ∧
      ∀ n, ∃ g', update_n n g = Except.ok g' ∧
        g'.nb_rows = 3 ∧ g'.nb_cols = 4 ∧ g'.m_board.length = 3 * 4 :=
  ⟨⟨by decide, by decide, by decide, by decide⟩,
    (buffer_length_invariant 3 4 [(0, 1), (2, 3)]
      (by decide) (by decide) (by decide) (by decide)).2.2⟩

/-- C6: every grid that the constructor returns, whatever its arguments, stores only the
values `0` and `1`; a valid construction (`rows >= 1`, `cols >= 1`, all pairs inside the
extent) whose product `rows*cols` is below `2^64`, hence a `size_t`, returns a grid; and on
a grid whose buffer has `nb_rows*nb_cols` cells `update()` returns a grid in which every
stored value is `0` or `1`. -/
theorem cell_values_binary (rows cols : Nat) (cells : List (Nat × Nat)) (g0 : board_game)
    (_hr : 1 ≤ rows) (_hc : 1 ≤ cols) (hsz : rows * cols < 2 ^ 64)
    (hcells : ∀ p ∈ cells, p.1 < rows ∧ p.2 < cols)
    (hlen : g0.m_board.length = g0.nb_rows * g0.nb_cols) :
    (∀ (r c : Nat) (l : List (Nat × Nat)) (g : board_game),
      board_game.construct r c l = Except.ok g → ∀ v ∈ g.m_board, v = 0 ∨ v = 1) ∧
    (∃ g, board_game.construct rows cols cells = Except.ok g ∧
      ∀ v ∈ g.m_board, v = 0 ∨ v = 1) ∧
    (∃ g', g0.update = Except.ok g' ∧ ∀ v ∈ g'.m_board, v = 0 ∨ v = 1) := by
  refine ⟨fun r c l g h => (construct_returns r c l g h).2.2.2, ?_,
    ⟨{ g0 with m_board := next_board g0 }, update_eq g0 hlen, next_board_binary g0⟩⟩
  obtain ⟨g, hrun, _⟩ := construct_ok rows cols cells hsz hcells
  exact ⟨g, hrun, (construct_returns rows cols cells g hrun).2.2.2⟩

/-- Witness of C6: a 2x3 construction, and an update of a 2x2 grid storing `7` and `255`. -/
theorem cell_values_binary_witness :
    (1 ≤ 2 ∧ 1 ≤ 3 ∧ 2 * 3 < 2 ^ 64 ∧ (∀ p ∈ [((1 : Nat), (2 : Nat))], p.1 < 2 ∧ p.2 < 3) ∧
      (board_game.mk 2 2 [7, 1, 255, 0]).m_board.length = 2 * 2) ∧
    (∃ g, board_game.construct 2 3 [(1, 2)] = Except.ok g ∧
      ∀ v ∈ g.m_board, v = 0 ∨ v = 1) ∧
    (∃ g', (board_game.mk 2 2 [7, 1, 255, 0]).update = Except.ok g' ∧
      ∀ v ∈ g'.m_board, v = 0 ∨ v = 1) :=
  ⟨⟨by decide, by decide, by decide, by decide, rfl⟩,
    (cell_values_binary 2 3 [(1, 2)] (board_game.mk 2 2 [7, 1, 255, 0])
      (by decide) (by decide) (by decide) (by decide) rfl).2⟩

/-- C7: on a grid with at least one row and one column and a buffer of `nb_rows*nb_cols`
cells, `update()` returns without fault; for every cell `(i,j)` of the loops no modulo
is by zero, each of the eight neighbour coordinates read addresses a slot below
`nb_rows*nb_cols`, so does `(i,j)` itself, and the loop body, which reads these nine slots
and writes `temp[i*nb_cols+j]`, returns on every `temp` of that size. -/
theorem update_in_bounds (g : board_game)
    (_hr : 1 ≤ g.nb_rows) (_hc : 1 ≤ g.nb_cols)
    (hlen : g.m_board.length = g.nb_rows * g.nb_cols) :
    (∃ g', g.update = Except.ok g') ∧
    ∀ i j, i < g.nb_rows → j < g.nb_cols →
      (∃ w, wrapped g i j = Except.ok w ∧
        ∀ p ∈ neighbour_coords w i j, p.1 * g.nb_cols + p.2 < g.nb_rows * g.nb_cols) ∧
      i * g.nb_cols + j < g.nb_rows * g.nb_cols ∧
      ∀ temp : List Nat, temp.length = g.nb_rows * g.nb_cols →
        ∃ t, update_cell g i j temp = Except.ok t := by
  refine ⟨⟨_, update_eq g hlen⟩, fun i j hi hj => ⟨?_, index_lt hi hj, fun temp ht => ?_⟩⟩
  · refine ⟨wrap_of g i j, wrapped_of_lt g hi hj, fun p hp => ?_⟩
    have h := neighbour_coords_lt g hi hj p hp
    exact index_lt h.1 h.2
  · exact ⟨_, update_cell_of_lt g hlen hi hj temp ht⟩

/-- Witness of C7: the 1x1 grid holding a living cell. -/
theorem update_in_bounds_witness :
    (1 ≤ 1 ∧ (board_game.mk 1 1 [1]).m_board.length = 1 * 1) ∧
    ∃ g', (board_game.mk 1 1 [1]).update = Except.ok g' :=
  ⟨⟨by decide, rfl⟩, (update_in_bounds (board_game.mk 1 1 [1]) (by decide) (by decide) rfl).1⟩

/-- C8: for each of the 18 pairs of a current state in `{0,1}` and a count `n` in `0..8`
the decision of `update()` is the table: alive and `n < 2` gives 0, alive and `n` in
`{2,3}` gives 1, alive and `n > 3` gives 0, dead and `n = 3` gives 1, dead and `n ≠ 3`
gives 0. -/
theorem rule_table_complete (current n : Nat) (hcur : current = 0 ∨ current = 1)
    (hn : n ≤ 8) :
    next_state current n = spec_table current n ∧
    (current = 1 → n < 2 → next_state current n = 0) ∧
    (current = 1 → n = 2 ∨ n = 3 → next_state current n = 1) ∧
    (current = 1 → 3 < n → next_state current n = 0) ∧
    (current = 0 → n = 3 → next_state current n = 1) ∧
    (current = 0 → n ≠ 3 → next_state current n = 0) := by
  rcases hcur with h | h <;> subst h <;> interval_cases n <;> decide

/-- Witness of C8: a living cell with two living neighbours survives. -/
theorem rule_table_complete_witness :
    (((1 : Nat) = 0 ∨ (1 : Nat) = 1) ∧ 2 ≤ 8) ∧ next_state 1 2 = 1 :=
  ⟨⟨by decide, by decide⟩,
    (rule_table_complete 1 2 (by decide) (by decide)).2.2.1 rfl (by decide)⟩

/-- C9: on the 20x20 grid whose living cells are the standard glider `(0,1)`, `(1,2)`,
`(2,0)`, `(2,1)`, `(2,2)`, four updates give the grid whose living cells are the glider
translated by `(+1,+1)`, that is `(1,2)`, `(2,3)`, `(3,1)`, `(3,2)`, `(3,3)`, and fewer than
four do not; `4*20 = 80` updates give the original grid again, and no smaller positive
number of updates does. -/
theorem glider_translation :
    ∃ g g4,
      board_game.construct 20 20 [(0, 1), (1, 2), (2, 0), (2, 1), (2, 2)] = Except.ok g ∧
      board_game.construct 20 20 [(1, 2), (2, 3), (3, 1), (3, 2), (3, 3)] = Except.ok g4 ∧
      update_n 4 g = Except.ok g4 ∧
      (∀ n, n < 4 → update_n n g ≠ Except.ok g4) ∧
      update_n (4 * 20) g = Except.ok g ∧
      (∀ n, 0 < n → n < 4 * 20 → update_n n g ≠ Except.ok g) := by
  have hin0 : cells_inside 20 20 glider_cells = true := by decide
  have hin1 : cells_inside 20 20 glider_phase1 = true := by decide
  have hin2 : cells_inside 20 20 glider_phase2 = true := by decide
  have hin3 : cells_inside 20 20 glider_phase3 = true := by decide
  have hin4 : cells_inside 20 20 glider_moved = true := by decide
  obtain ⟨g0, hg0, hr, hc, hl, _⟩ :=
    construct_ok 20 20 glider_cells (by decide) ((cells_inside_iff 20 20 glider_cells).mp hin0)
  obtain ⟨g1, hg1, _⟩ :=
    construct_ok 20 20 glider_phase1 (by decide) ((cells_inside_iff 20 20 glider_phase1).mp hin1)
  obtain ⟨g2, hg2, _⟩ :=
    construct_ok 20 20 glider_phase2 (by decide) ((cells_inside_iff 20 20 glider_phase2).mp hin2)
  obtain ⟨g3, hg3, _⟩ :=
    construct_ok 20 20 glider_phase3 (by decide) ((cells_inside_iff 20 20 glider_phase3).mp hin3)
  obtain ⟨g4, hg4, _⟩ :=
    construct_ok 20 20 glider_moved (by decide) ((cells_inside_iff 20 20 glider_moved).mp hin4)
  have hlen : g0.m_board.length = g0.nb_rows * g0.nb_cols := by rw [hl, hr, hc]
  have s1 : g0.update = Except.ok g1 :=
    update_of_check hg0 hg1 (by decide) hin0 hin1 (by decide!)
  have s2 : g1.update = Except.ok g2 :=
    update_of_check hg1 hg2 (by decide) hin1 hin2 (by decide!)
  have s3 : g2.update = Except.ok g3 :=
    update_of_check hg2 hg3 (by decide) hin2 hin3 (by decide!)
  have s4 : g3.update = Except.ok g4 :=
    update_of_check hg3 hg4 (by decide) hin3 hin4 (by decide!)
  have u0 : update_n 0 g0 = Except.ok g0 := rfl
  have u1 : update_n 1 g0 = Except.ok g1 := by simp only [update_n, s1]
  have u2 : update_n 2 g0 = Except.ok g2 := by simp only [update_n, s1, s2]
  have u3 : update_n 3 g0 = Except.ok g3 := by simp only [update_n, s1, s2, s3]
  have u4 : update_n 4 g0 = Except.ok g4 := by simp only [update_n, s1, s2, s3, s4]
  have hshift : g4 = shift_board 1 1 g0 :=
    shift_of_check hg0 hg4 (by decide) hin0 hin4 (by decide!)
  have h4 : update_n 4 g0 = Except.ok (shift_board 1 1 g0) := by rw [u4, hshift]
  have hphase : ∀ r, r < 4 → ∃ gr, board_game.construct 20 20 (glider_phase r) = Except.ok gr ∧
      cells_inside 20 20 (glider_phase r) = true ∧ update_n r g0 = Except.ok gr := by
    intro r hr4
    interval_cases r
    · exact ⟨g0, hg0, hin0, u0⟩
    · exact ⟨g1, hg1, hin1, u1⟩
    · exact ⟨g2, hg2, hin2, u2⟩
    · exact ⟨g3, hg3, hin3, u3⟩
  have horbit : glider_orbit_check = true := by decide!
  unfold glider_orbit_check at horbit
  rw [all_below_iff] at horbit
  refine ⟨g0, g4, hg0, hg4, u4, ?_, ?_, ?_⟩
  · intro n hn hrun
    obtain ⟨gr, hgr, hinr, hur⟩ := hphase n hn
    rw [hur] at hrun
    have hne : shift_board 0 0 g4 ≠ gr := by
      apply shift_ne_of_check hgr hg4 (by decide) hinr hin4
      interval_cases n <;> decide
    apply hne
    rw [shift_board_full 0 0 g4 (by rw [hshift]; exact shift_board_length 1 1 g0)
      (Nat.zero_mod _) (Nat.zero_mod _)]
    exact (Except.ok.inj hrun).symm
  · rw [shifted_every_four g0 hlen h4 20]
    rw [shift_board_full 20 20 g0 hlen (by rw [hr]) (by rw [hc])]
  · intro n hpos hn hrun
    have hk : n / 4 < 20 := by omega
    have hr4 : n % 4 < 4 := Nat.mod_lt n (by decide)
    have hsplit : 4 * (n / 4) + n % 4 = n := Nat.div_add_mod n 4
    obtain ⟨gr, hgr, hinr, hur⟩ := hphase (n % 4) hr4
    have hrow := horbit (n / 4) hk
    rw [all_below_iff] at hrow
    have hcase := hrow (n % 4) hr4
    rw [Bool.or_eq_true, Bool.and_eq_true] at hcase
    rcases hcase with ⟨hk0, hr0⟩ | hdiff
    · have e1 := Nat.eq_of_beq_eq_true hk0
      have e2 := Nat.eq_of_beq_eq_true hr0
      omega
    · have hne := shift_ne_of_check hg0 hgr (by decide) hin0 hinr hdiff
      apply hne
      have horb := shifted_orbit g0 gr (n % 4) hlen h4 hur (n / 4)
      rw [hsplit, hrun] at horb
      exact (Except.ok.inj horb).symm

/-- C10: on a grid with at least 5 rows and 5 columns and a buffer of `nb_rows*nb_cols`
cells, for a centre `(r,c)` with `1 <= r <= nb_rows-2` and `1 <= c <= nb_cols-2`, if the
living cells are exactly `(r,c-1)`, `(r,c)`, `(r,c+1)` then `update()` returns a grid whose
living cells are exactly `(r-1,c)`, `(r,c)`, `(r+1,c)`, and a second `update()` returns
the original grid. -/
theorem blinker_oscillates (g : board_game) (r c : Nat)
    (hrows : 5 ≤ g.nb_rows) (hcols : 5 ≤ g.nb_cols)
    (hr1 : 1 ≤ r) (hr2 : r ≤ g.nb_rows - 2) (hc1 : 1 ≤ c) (hc2 : c ≤ g.nb_cols - 2)
    (hlen : g.m_board.length = g.nb_rows * g.nb_cols)
    (hcells : ∀ i j, i < g.nb_rows → j < g.nb_cols →
      g.get i j = Except.ok (if i = r ∧ (j = c - 1 ∨ j = c ∨ j = c + 1) then 1 else 0)) :
    ∃ g1, g.update = Except.ok g1 ∧
      (∀ i j, i < g.nb_rows → j < g.nb_cols →
        g1.get i j = Except.ok (if j = c ∧ (i = r - 1 ∨ i = r ∨ i = r + 1) then 1 else 0)) ∧
      g1.update = Except.ok g := by
  have hprod : ∀ i j, i < g.nb_rows → j < g.nb_cols →
      cell g i j = point_at r i * segment_at c j := by
    intro i j hi hj
    have h := hcells i j hi hj
    rw [get_of_lt g hlen hi hj] at h
    rw [point_mul_segment]
    exact Except.ok.inj h
  have hlen1 : (next_board g).length = g.nb_rows * g.nb_cols := next_board_length g
  have hprod1 : ∀ i j, i < g.nb_rows → j < g.nb_cols →
      cell { g with m_board := next_board g } i j = segment_at r i * point_at c j := by
    intro i j hi hj
    rw [cell_next_board g hi hj]
    exact blinker_rows_to_cols g r c (by omega) hcols hr1 hr2 hc1 hc2 hprod hi hj
  refine ⟨{ g with m_board := next_board g }, update_eq g hlen, fun i j hi hj => ?_, ?_⟩
  · rw [get_of_lt { g with m_board := next_board g } hlen1 hi hj, hprod1 i j hi hj,
      segment_mul_point]
  · rw [update_eq { g with m_board := next_board g } hlen1]
    congr 1
    apply board_ext
    · rfl
    · rfl
    · exact next_board_length { g with m_board := next_board g }
    · exact hlen
    · intro i j hi hj
      have hi1 : i < g.nb_rows := hi
      have hj1 : j < g.nb_cols := hj
      have hcols3 : 3 ≤ g.nb_cols := by omega
      rw [cell_next_board { g with m_board := next_board g } hi1 hj1, hprod i j hi1 hj1]
      exact blinker_cols_to_rows { g with m_board := next_board g } r c hrows hcols3
        hr1 hr2 hc1 hc2 hprod1 hi1 hj1

/-- Witness of C10: the blinker centred at `(2,2)` on the 5x5 grid. -/
theorem blinker_oscillates_witness :
    (5 ≤ blinker_5x5.nb_rows ∧ 5 ≤ blinker_5x5.nb_cols ∧ 1 ≤ 2 ∧ 2 ≤ blinker_5x5.nb_rows - 2 ∧
      2 ≤ blinker_5x5.nb_cols - 2 ∧
      blinker_5x5.m_board.length = blinker_5x5.nb_rows * blinker_5x5.nb_cols) ∧
    ∃ g1, blinker_5x5.update = Except.ok g1 ∧
      (∀ i j, i < blinker_5x5.nb_rows → j < blinker_5x5.nb_cols →
        g1.get i j = Except.ok (if j = 2 ∧ (i = 2 - 1 ∨ i = 2 ∨ i = 2 + 1) then 1 else 0)) ∧
      g1.update = Except.ok blinker_5x5 :=
  ⟨⟨by decide, by decide, by decide, by decide, by decide, rfl⟩,
    blinker_oscillates blinker_5x5 2 2 (by decide) (by decide) (by decide) (by decide)
      (by decide) (by decide) rfl
      (fun i j hi hj => by
        have hi5 : i < 5 := hi
        have hj5 : j < 5 := hj
        interval_cases i <;> interval_cases j <;> rfl)⟩

/-- C11: on a grid with at least 4 rows and 4 columns and a buffer of `nb_rows*nb_cols`
cells, for `(r,c)` with `r+1 < nb_rows` and `c+1 < nb_cols`, if the living cells are exactly
the block `(r,c)`, `(r,c+1)`, `(r+1,c)`, `(r+1,c+1)` then `update()` returns the grid
unchanged: the published buffer is the buffer it started from. -/
theorem block_still_life (g : board_game) (r c : Nat)
    (hrows : 4 ≤ g.nb_rows) (hcols : 4 ≤ g.nb_cols)
    (hr : r + 1 < g.nb_rows) (hc : c + 1 < g.nb_cols)
    (hlen : g.m_board.length = g.nb_rows * g.nb_cols)
    (hcells : ∀ i j, i < g.nb_rows → j < g.nb_cols →
      g.get i j =
        Except.ok (if (i = r ∨ i = r + 1) ∧ (j = c ∨ j = c + 1) then 1 else 0)) :
    g.update = Except.ok g ∧
      ∀ g', g.update = Except.ok g' → g'.m_board = g.m_board := by
  have hprod : ∀ i j, i < g.nb_rows → j < g.nb_cols →
      cell g i j = pair_at r i * pair_at c j := by
    intro i j hi hj
    have h := hcells i j hi hj
    rw [get_of_lt g hlen hi hj] at h
    rw [pair_mul_pair]
    exact Except.ok.inj h
  have hup : g.update = Except.ok g := by
    rw [update_eq g hlen]
    congr 1
    apply board_ext
    · rfl
    · rfl
    · exact next_board_length g
    · exact hlen
    · intro i j hi hj
      have hi1 : i < g.nb_rows := hi
      have hj1 : j < g.nb_cols := hj
      have hs := cells_total_product g (pair_at r) (pair_at c) hprod hi1 hj1
      rw [cell_next_board g hi1 hj1, hprod i j hi1 hj1]
      unfold new_value nb_count
      rw [hprod i j hi1 hj1]
      exact block_decision (pair_triple hrows hr hi1) (pair_triple hcols hc hj1) hs
  refine ⟨hup, fun g' hg' => ?_⟩
  rw [hup] at hg'
  rw [← Except.ok.inj hg']

/-- Witness of C11: the block at `(1,1)` on the 4x4 grid. -/
theorem block_still_life_witness :
    (4 ≤ block_4x4.nb_rows ∧ 4 ≤ block_4x4.nb_cols ∧ 1 + 1 < block_4x4.nb_rows ∧
      1 + 1 < block_4x4.nb_cols ∧
      block_4x4.m_board.length = block_4x4.nb_rows * block_4x4.nb_cols) ∧
    block_4x4.update = Except.ok block_4x4 :=
  ⟨⟨by decide, by decide, by decide, by decide, rfl⟩,
    (block_still_life block_4x4 1 1 (by decide) (by decide) (by decide) (by decide) rfl
      (fun i j hi hj => by
        have hi4 : i < 4 := hi
        have hj4 : j < 4 := hj
        interval_cases i <;> interval_cases j <;> rfl)).1⟩

/-- C12: on the 1x1 grid holding the value `v` the four wrapped indices of the cell `(0,0)`
are `0`, the eight neighbour coordinates `update()` reads are all `(0,0)`, and their sum is
`8*v`; the living 1x1 grid is dead after one `update()` and the dead one stays dead. -/
theorem one_by_one_wrap (v : Nat) :
    wrapped (board_game.mk 1 1 [v]) 0 0 = Except.ok (wrap_indices.mk 0 0 0 0) ∧
    neighbour_coords (wrap_indices.mk 0 0 0 0) 0 0 = List.replicate 8 (0, 0) ∧
    sum_cells (board_game.mk 1 1 [v]) (neighbour_coords (wrap_indices.mk 0 0 0 0) 0 0) =
      Except.ok (8 * v) ∧
    (board_game.mk 1 1 [1]).update = Except.ok (board_game.mk 1 1 [0]) ∧
    (board_game.mk 1 1 [0]).update = Except.ok (board_game.mk 1 1 [0]) := by
  refine ⟨?_, rfl, ?_, rfl, rfl⟩
  · rw [wrapped_of_lt (board_game.mk 1 1 [v]) Nat.zero_lt_one Nat.zero_lt_one]
    simp [wrap_of]
  have hget : (board_game.mk 1 1 [v]).get 0 0 = Except.ok v := rfl
  simp only [neighbour_coords, sum_cells, hget]
  congr 1
  omega

/-- C13: on a grid with at least one row and one column, a buffer of `nb_rows*nb_cols`
cells and every cell `0` or `1`, the sum `s` of the eight neighbour values that `update()`
computes for a cell inside the extent is at most 8, so that narrowing it to `unsigned char`
leaves it unchanged: `s % 256 = s`. -/
theorem neighbour_count_bound (g : board_game) (i j : Nat)
    (_hr : 1 ≤ g.nb_rows) (_hc : 1 ≤ g.nb_cols)
    (hlen : g.m_board.length = g.nb_rows * g.nb_cols)
    (hbin : ∀ v ∈ g.m_board, v = 0 ∨ v = 1)
    (hi : i < g.nb_rows) (hj : j < g.nb_cols) :
    ∃ w s, wrapped g i j = Except.ok w ∧
      sum_cells g (neighbour_coords w i j) = Except.ok s ∧
      0 ≤ s ∧ s ≤ 8 ∧ s % 256 = s := by
  have hle := cells_total_le g hbin (neighbour_coords (wrap_of g i j) i j)
  have h8 : (neighbour_coords (wrap_of g i j) i j).length = 8 := rfl
  refine ⟨wrap_of g i j, cells_total g (neighbour_coords (wrap_of g i j) i j),
    wrapped_of_lt g hi hj, sum_cells_of_lt g hlen _ (neighbour_coords_lt g hi hj),
    Nat.zero_le _, by omega, Nat.mod_eq_of_lt (by omega)⟩

/-- Witness of C13: the centre of the 3x3 grid with all cells alive. -/
theorem neighbour_count_bound_witness :
    (1 ≤ 3 ∧ ([1, 1, 1, 1, 1, 1, 1, 1, 1] : List Nat).length = 3 * 3 ∧
      (∀ v ∈ ([1, 1, 1, 1, 1, 1, 1, 1, 1] : List Nat), v = 0 ∨ v = 1) ∧ 1 < 3) ∧
    ∃ w s, wrapped (board_game.mk 3 3 [1, 1, 1, 1, 1, 1, 1, 1, 1]) 1 1 = Except.ok w ∧
      sum_cells (board_game.mk 3 3 [1, 1, 1, 1, 1, 1, 1, 1, 1]) (neighbour_coords w 1 1) =
        Except.ok s ∧
      0 ≤ s ∧ s ≤ 8 ∧ s % 256 = s :=
  ⟨⟨by decide, by decide, by decide, by decide⟩,
    neighbour_count_bound (board_game.mk 3 3 [1, 1, 1, 1, 1, 1, 1, 1, 1]) 1 1
      (by decide) (by decide) (by decide) (by decide) (by decide) (by decide)⟩

/-- C14: for `rows, cols >= 1` and a sequence of pairs inside the extent, the constructor
gives the same result for every sequence with the same set of pairs, in particular for
the sequence with its duplicates removed; and when `rows*cols` is below `2^64`, hence a
`size_t`, that result is a grid, repeated pairs included. -/
theorem construct_repetition_idempotent (rows cols : Nat) (cells cells2 : List (Nat × Nat))
    (_hr : 1 ≤ rows) (_hc : 1 ≤ cols) (hin : ∀ p ∈ cells, p.1 < rows ∧ p.2 < cols)
    (hsame : ∀ p, p ∈ cells ↔ p ∈ cells2) :
    board_game.construct rows cols cells = board_game.construct rows cols cells2 ∧
    board_game.construct rows cols cells = board_game.construct rows cols cells.dedup ∧
    (rows * cols < 2 ^ 64 →
      ∃ g, board_game.construct rows cols cells = Except.ok g ∧
        board_game.construct rows cols cells2 = Except.ok g ∧
        board_game.construct rows cols cells.dedup = Except.ok g) := by
  have h2 : board_game.construct rows cols cells = board_game.construct rows cols cells2 :=
    mark_cells_congr cells cells2 _ hsame
  have hd : board_game.construct rows cols cells =
      board_game.construct rows cols cells.dedup :=
    mark_cells_congr cells cells.dedup _ (fun p => List.mem_dedup.symm)
  refine ⟨h2, hd, fun hsz => ?_⟩
  obtain ⟨g, hg, _⟩ := construct_ok rows cols cells hsz hin
  exact ⟨g, hg, by rw [← h2, hg], by rw [← hd, hg]⟩

/-- Witness of C14: a list naming `(0,1)` three times and `(1,1)` once, against the same
pairs in another order. -/
theorem construct_repetition_idempotent_witness :
    (1 ≤ 2 ∧ 1 ≤ 2 ∧
      (∀ p ∈ [((0 : Nat), (1 : Nat)), (1, 1), (0, 1), (0, 1)], p.1 < 2 ∧ p.2 < 2) ∧
      (∀ p, p ∈ [((0 : Nat), (1 : Nat)), (1, 1), (0, 1), (0, 1)] ↔
        p ∈ [((1 : Nat), (1 : Nat)), (0, 1)]) ∧ 2 * 2 < 2 ^ 64) ∧
    ∃ g, board_game.construct 2 2 [(0, 1), (1, 1), (0, 1), (0, 1)] = Except.ok g ∧
      board_game.construct 2 2 [(1, 1), (0, 1)] = Except.ok g ∧
      board_game.construct 2 2 [((0 : Nat), (1 : Nat)), (1, 1), (0, 1), (0, 1)].dedup =
        Except.ok g :=
  ⟨⟨by decide, by decide, by decide, fun p => by simp; tauto, by decide⟩,
    (construct_repetition_idempotent 2 2 [(0, 1), (1, 1), (0, 1), (0, 1)] [(1, 1), (0, 1)]
      (by decide) (by decide) (by decide) (fun p => by simp; tauto)).2.2 (by decide)⟩

/-- C15, as stated, fails: on a 2x2 grid `get(0,2)`, with `j = 2 >= cols`, raises nothing
and returns `1`, the value of the cell `(1,0)`; and `get(2^63,0)`, with `i >= rows` and the
index `2^63*2` equal to `0` in `size_t`, raises nothing and returns the value of the cell
`(0,0)`. -/
theorem get_reads_other_cell :
    (board_game.mk 2 2 [0, 0, 1, 0]).get 0 2 = Except.ok 1 ∧
      (board_game.mk 2 2 [0, 0, 1, 0]).get 1 0 = Except.ok 1 ∧
      (board_game.mk 2 2 [0, 0, 1, 0]).get 0 0 = Except.ok 0 ∧
      (board_game.mk 2 2 [5, 0, 1, 0]).get (2 ^ 63) 0 = Except.ok 5 ∧
      (board_game.mk 2 2 [5, 0, 1, 0]).get 0 0 = Except.ok 5 :=
  ⟨rfl, rfl, rfl, rfl, rfl⟩

/-- C15, amended: `get` checks no index.  On a grid with a buffer of `nb_rows*nb_cols`
cells, fewer than `2^64`, `get(i,j)` reads the slot whose index is `i*nb_cols+j` computed in
`size_t`, that is modulo `2^64`.  For `(i,j)` inside the extent that index is `i*nb_cols+j`
itself and `get` returns the value stored there.  Whenever the index is below
`nb_rows*nb_cols`, also for `(i,j)` outside the extent, `get` returns the value stored at
the index, which is the value of the cell `(k / nb_cols, k mod nb_cols)` for the index `k`.
It ends in the out-of-bounds fault exactly when the index is not below `nb_rows*nb_cols`.
It only returns a value: the grid is not part of its result. -/
theorem get_unchecked (g : board_game) (i j : Nat)
    (hlen : g.m_board.length = g.nb_rows * g.nb_cols)
    (hsz : g.m_board.length < 2 ^ 64) :
    slot_of g i j = (i * g.nb_cols + j) % 2 ^ 64 ∧
    (i < g.nb_rows → j < g.nb_cols →
      ∃ v, g.m_board[i * g.nb_cols + j]? = some v ∧ g.get i j = Except.ok v) ∧
    ((i * g.nb_cols + j) % 2 ^ 64 < g.nb_rows * g.nb_cols →
      ∃ v, g.m_board[(i * g.nb_cols + j) % 2 ^ 64]? = some v ∧ g.get i j = Except.ok v ∧
        (i * g.nb_cols + j) % 2 ^ 64 / g.nb_cols < g.nb_rows ∧
        (i * g.nb_cols + j) % 2 ^ 64 % g.nb_cols < g.nb_cols ∧
        g.get ((i * g.nb_cols + j) % 2 ^ 64 / g.nb_cols)
            ((i * g.nb_cols + j) % 2 ^ 64 % g.nb_cols) = Except.ok v) ∧
    (g.get i j = Except.error Fault.out_of_bounds ↔
      g.nb_rows * g.nb_cols ≤ (i * g.nb_cols + j) % 2 ^ 64) := by
  have hslot : slot_of g i j = (i * g.nb_cols + j) % 2 ^ 64 := size_index_of_small hsz
  have hin : i < g.nb_rows → j < g.nb_cols →
      ∃ v, g.m_board[i * g.nb_cols + j]? = some v ∧ g.get i j = Except.ok v := by
    intro hi hj
    have hk2 : i * g.nb_cols + j < g.m_board.length := by rw [hlen]; exact index_lt hi hj
    refine ⟨g.m_board[i * g.nb_cols + j], List.getElem?_eq_getElem hk2, ?_⟩
    unfold board_game.get
    rw [slot_of_lt g hlen hi hj]
    simp [vec_read, hk2]
  have hget : g.get i j = vec_read g.m_board ((i * g.nb_cols + j) % 2 ^ 64) := by
    unfold board_game.get
    rw [hslot]
  refine ⟨hslot, hin, ?_⟩
  generalize (i * g.nb_cols + j) % 2 ^ 64 = k at hget
  have hread : k < g.nb_rows * g.nb_cols →
      ∃ v, g.m_board[k]? = some v ∧ g.get i j = Except.ok v := by
    intro hk
    have hk2 : k < g.m_board.length := by rw [hlen]; exact hk
    refine ⟨g.m_board[k], List.getElem?_eq_getElem hk2, ?_⟩
    rw [hget]
    simp [vec_read, hk2]
  refine ⟨fun hk => ?_, ?_⟩
  · obtain ⟨v, hv, hg⟩ := hread hk
    have hc : 0 < g.nb_cols := by
      rcases Nat.eq_zero_or_pos g.nb_cols with h | h
      · rw [h, Nat.mul_zero] at hk; omega
      · exact h
    obtain ⟨h1, h2, h3⟩ := index_div_mod hc hk
    refine ⟨v, hv, hg, h1, h2, ?_⟩
    unfold board_game.get
    rw [slot_of_lt g hlen h1 h2, h3]
    simp [vec_read, hv]
  · constructor
    · intro h
      by_contra hno
      obtain ⟨v, _, hg⟩ := hread (Nat.lt_of_not_le hno)
      rw [hg] at h
      cases h
    · intro h
      have h2 : g.m_board.length ≤ k := by rw [hlen]; exact h
      rw [hget]
      simp [vec_read, List.getElem?_eq_none h2]

/-- Witness of the amended C15: the read `get(0,3)` on a 2x3 grid is outside the extent
and inside the buffer. -/
theorem get_unchecked_witness :
    ((board_game.mk 2 3 [0, 0, 0, 7, 0, 0]).m_board.length = 2 * 3 ∧
      (board_game.mk 2 3 [0, 0, 0, 7, 0, 0]).m_board.length < 2 ^ 64 ∧
      (0 * 3 + 3) % 2 ^ 64 < 2 * 3) ∧
    ∃ v, (board_game.mk 2 3 [0, 0, 0, 7, 0, 0]).m_board[(0 * 3 + 3) % 2 ^ 64]? = some v ∧
      (board_game.mk 2 3 [0, 0, 0, 7, 0, 0]).get 0 3 = Except.ok v ∧
      (0 * 3 + 3) % 2 ^ 64 / 3 < 2 ∧ (0 * 3 + 3) % 2 ^ 64 % 3 < 3 ∧
      (board_game.mk 2 3 [0, 0, 0, 7, 0, 0]).get ((0 * 3 + 3) % 2 ^ 64 / 3)
        ((0 * 3 + 3) % 2 ^ 64 % 3) = Except.ok v :=
  ⟨⟨rfl, by decide, by decide⟩,
    (get_unchecked (board_game.mk 2 3 [0, 0, 0, 7, 0, 0]) 0 3 rfl (by decide)).2.2.1
      (by decide)⟩

/-- C16: on a grid with `R >= 1` rows and `C >= 1` columns the eight neighbour coordinates
`update()` reads for the corner `(0,0)` are `(R-1,C-1)`, `(R-1,0)`, `(R-1,1 mod C)`,
`(0,C-1)`, `(0,1 mod C)`, `(1 mod R,C-1)`, `(1 mod R,0)`, `(1 mod R,1 mod C)`, cells of the
last row and of the last column among them; and for the corner `(R-1,C-1)` the indices
`up_index` and `right_index` are `0`, so that its neighbours `(0,C-1)`, `(R-1,0)` and
`(0,0)` lie in row 0 and in column 0. -/
theorem corner_wrap (g : board_game) (hr : 1 ≤ g.nb_rows) (hc : 1 ≤ g.nb_cols) :
    (∃ w, wrapped g 0 0 = Except.ok w ∧
      neighbour_coords w 0 0 =
        [(g.nb_rows - 1, g.nb_cols - 1), (g.nb_rows - 1, 0), (g.nb_rows - 1, 1 % g.nb_cols),
         (0, g.nb_cols - 1), (0, 1 % g.nb_cols),
         (1 % g.nb_rows, g.nb_cols - 1), (1 % g.nb_rows, 0),
         (1 % g.nb_rows, 1 % g.nb_cols)]) ∧
    (∃ w, wrapped g (g.nb_rows - 1) (g.nb_cols - 1) = Except.ok w ∧
      w.up_index = 0 ∧ w.right_index = 0 ∧
      neighbour_coords w (g.nb_rows - 1) (g.nb_cols - 1) =
        [(w.bottom_index, w.left_index), (w.bottom_index, g.nb_cols - 1), (w.bottom_index, 0),
         (g.nb_rows - 1, w.left_index), (g.nb_rows - 1, 0),
         (0, w.left_index), (0, g.nb_cols - 1), (0, 0)]) := by
  have hr0 : 0 < g.nb_rows := hr
  have hc0 : 0 < g.nb_cols := hc
  have hr1 : g.nb_rows - 1 < g.nb_rows := by omega
  have hc1 : g.nb_cols - 1 < g.nb_cols := by omega
  constructor
  · refine ⟨wrap_of g 0 0, wrapped_of_lt g hr0 hc0, ?_⟩
    have e1 : (g.nb_rows - 1) % g.nb_rows = g.nb_rows - 1 := Nat.mod_eq_of_lt hr1
    have e2 : (g.nb_cols - 1) % g.nb_cols = g.nb_cols - 1 := Nat.mod_eq_of_lt hc1
    simp only [neighbour_coords, wrap_of, Nat.zero_add, e1, e2]
  · have e1 : (g.nb_rows - 1 + 1) % g.nb_rows = 0 := by
      rw [Nat.sub_add_cancel hr, Nat.mod_self]
    have e2 : (g.nb_cols - 1 + 1) % g.nb_cols = 0 := by
      rw [Nat.sub_add_cancel hc, Nat.mod_self]
    refine ⟨wrap_of g (g.nb_rows - 1) (g.nb_cols - 1), wrapped_of_lt g hr1 hc1, e1, e2, ?_⟩
    simp only [neighbour_coords, wrap_of, e1, e2]

/-- Witness of C16: the corners of a 3x4 grid. -/
theorem corner_wrap_witness :
    (1 ≤ 3 ∧ 1 ≤ 4) ∧
    ∃ w, wrapped (board_game.mk 3 4 (List.replicate 12 0)) 0 0 = Except.ok w ∧
      neighbour_coords w 0 0 =
        [(3 - 1, 4 - 1), (3 - 1, 0), (3 - 1, 1 % 4), (0, 4 - 1), (0, 1 % 4),
         (1 % 3, 4 - 1), (1 % 3, 0), (1 % 3, 1 % 4)] :=
  ⟨⟨by decide, by decide⟩,
    (corner_wrap (board_game.mk 3 4 (List.replicate 12 0)) (by decide) (by decide)).1⟩

/-- C17: on a grid with at least one row and one column and a buffer of `nb_rows*nb_cols`
cells, the index `i*nb_cols+j` that `operator()` uses maps the coordinates inside the
extent one-to-one onto the indices below `nb_rows*nb_cols`: it stays below
`nb_rows*nb_cols`, two coordinates with the same index are equal, and every index below
`nb_rows*nb_cols` is the index of a coordinate.  So `get` succeeds on every coordinate
inside the extent, and writing one coordinate leaves the value read at every other
coordinate unchanged. -/
theorem row_major_bijection (g : board_game) (_hr : 1 ≤ g.nb_rows) (hc : 1 ≤ g.nb_cols)
    (hlen : g.m_board.length = g.nb_rows * g.nb_cols) :
    (∀ i j, g.get i j = vec_read g.m_board (slot_of g i j)) ∧
    (∀ i j, i < g.nb_rows → j < g.nb_cols → slot_of g i j < g.nb_rows * g.nb_cols) ∧
    (∀ i j i2 j2, i < g.nb_rows → j < g.nb_cols → i2 < g.nb_rows → j2 < g.nb_cols →
      slot_of g i j = slot_of g i2 j2 → i = i2 ∧ j = j2) ∧
    (∀ k, k < g.nb_rows * g.nb_cols →
      ∃ i j, i < g.nb_rows ∧ j < g.nb_cols ∧ slot_of g i j = k) ∧
    (∀ i j, i < g.nb_rows → j < g.nb_cols → ∃ v, g.get i j = Except.ok v) ∧
    (∀ i j i2 j2 x, i < g.nb_rows → j < g.nb_cols → i2 < g.nb_rows → j2 < g.nb_cols →
      (i, j) ≠ (i2, j2) →
      ∃ g', g.set i j x = Except.ok g' ∧ g'.get i j = Except.ok x ∧
        g'.get i2 j2 = g.get i2 j2) := by
  refine ⟨fun _ _ => rfl,
    fun i j hi hj => by rw [slot_of_lt g hlen hi hj]; exact index_lt hi hj,
    fun i j i2 j2 hi hj hi2 hj2 h => index_inj hj hj2
      (by rw [slot_of_lt g hlen hi hj, slot_of_lt g hlen hi2 hj2] at h; exact h),
    fun k hk => ?_,
    fun i j hi hj => ⟨_, get_of_lt g hlen hi hj⟩,
    fun i j i2 j2 x hi hj hi2 hj2 hne => ?_⟩
  · obtain ⟨h1, h2, h3⟩ := index_div_mod hc hk
    exact ⟨k / g.nb_cols, k % g.nb_cols, h1, h2, by rw [slot_of_lt g hlen h1 h2]; exact h3⟩
  · have hk : slot_of g i j < g.m_board.length := by
      rw [slot_of_lt g hlen hi hj, hlen]; exact index_lt hi hj
    have hsame : ∀ a b,
        slot_of { g with m_board := g.m_board.set (slot_of g i j) x } a b = slot_of g a b :=
      fun a b => slot_of_congr g { g with m_board := g.m_board.set (slot_of g i j) x } rfl
        (by simp) a b
    refine ⟨_, set_of_lt g x hk, ?_, ?_⟩
    · unfold board_game.get
      rw [hsame]
      simp [vec_read, hk]
    · have hslot : slot_of g i j ≠ slot_of g i2 j2 := by
        rw [slot_of_lt g hlen hi hj, slot_of_lt g hlen hi2 hj2]
        intro h
        obtain ⟨e1, e2⟩ := index_inj hj hj2 h
        exact hne (by rw [e1, e2])
      unfold board_game.get
      rw [hsame]
      simp [vec_read, List.getElem?_set_ne hslot]

/-- Witness of C17: the 2x3 grid of zeros. -/
theorem row_major_bijection_witness :
    (1 ≤ 2 ∧ 1 ≤ 3 ∧ (List.replicate 6 0 : List Nat).length = 2 * 3) ∧
    (∀ i j i2 j2, i < 2 → j < 3 → i2 < 2 → j2 < 3 →
      slot_of (board_game.mk 2 3 (List.replicate 6 0)) i j =
        slot_of (board_game.mk 2 3 (List.replicate 6 0)) i2 j2 → i = i2 ∧ j = j2) ∧
    (∀ k, k < 2 * 3 →
      ∃ i j, i < 2 ∧ j < 3 ∧ slot_of (board_game.mk 2 3 (List.replicate 6 0)) i j = k) :=
  ⟨⟨by decide, by decide, rfl⟩,
    (row_major_bijection (board_game.mk 2 3 (List.replicate 6 0))
      (by decide) (by decide) rfl).2.2.1,
    (row_major_bijection (board_game.mk 2 3 (List.replicate 6 0))
      (by decide) (by decide) rfl).2.2.2.1⟩

/-- C18: on a grid with at least one row and one column and a buffer of `nb_rows*nb_cols`
cells, and for every shift `(a,b)`: the shifted grid holds at
`((i+a) mod nb_rows, (j+b) mod nb_cols)` the value the grid holds at `(i,j)`; `update()`
returns on the grid and on the shifted grid, and the update of the shifted grid is the
shifted update of the grid. -/
theorem update_commutes_with_shift (g : board_game) (a b : Nat)
    (_hr : 1 ≤ g.nb_rows) (_hc : 1 ≤ g.nb_cols)
    (hlen : g.m_board.length = g.nb_rows * g.nb_cols) :
    (∀ i j, i < g.nb_rows → j < g.nb_cols →
      (shift_board a b g).get ((i + a) % g.nb_rows) ((j + b) % g.nb_cols) = g.get i j) ∧
    ∃ g', g.update = Except.ok g' ∧
      (shift_board a b g).update = Except.ok (shift_board a b g') := by
  constructor
  · intro i j hi hj
    have hr0 : 0 < g.nb_rows := by omega
    have hc0 : 0 < g.nb_cols := by omega
    have hi2 : (i + a) % g.nb_rows < (shift_board a b g).nb_rows := Nat.mod_lt _ hr0
    have hj2 : (j + b) % g.nb_cols < (shift_board a b g).nb_cols := Nat.mod_lt _ hc0
    rw [get_of_lt (shift_board a b g) (shift_board_length a b g) hi2 hj2,
      cell_shift_board a b g (Nat.mod_lt _ hr0) (Nat.mod_lt _ hc0),
      shift_source_target hr0 a hi, shift_source_target hc0 b hj, get_of_lt g hlen hi hj]
  · exact ⟨{ g with m_board := next_board g }, update_eq g hlen, update_shift_board a b g⟩

/-- Witness of C18: the blinker on the 5x5 grid shifted by `(4,7)`. -/
theorem update_commutes_with_shift_witness :
    (1 ≤ blinker_5x5.nb_rows ∧ 1 ≤ blinker_5x5.nb_cols ∧
      blinker_5x5.m_board.length = blinker_5x5.nb_rows * blinker_5x5.nb_cols) ∧
    ∃ g', blinker_5x5.update = Except.ok g' ∧
      (shift_board 4 7 blinker_5x5).update = Except.ok (shift_board 4 7 g') :=
  ⟨⟨by decide, by decide, rfl⟩,
    (update_commutes_with_shift blinker_5x5 4 7 (by decide) (by decide) rfl).2⟩

/-- C19: on a grid with at least 3 rows and 3 columns and for a cell `(i,j)` inside the
extent, the eight coordinates `update()` reads are pairwise distinct, none of them is
`(i,j)`, and they are exactly the coordinates at toroidal distance 1 from `(i,j)`; so,
when the buffer has `nb_rows*nb_cols` cells, each `0` or `1`, the sum `update()` computes
is the number of living cells at toroidal distance 1 from `(i,j)`. -/
theorem neighbour_sum_is_count (g : board_game) (i j : Nat)
    (hrows : 3 ≤ g.nb_rows) (hcols : 3 ≤ g.nb_cols)
    (hi : i < g.nb_rows) (hj : j < g.nb_cols) :
    ∃ w, wrapped g i j = Except.ok w ∧
      (neighbour_coords w i j).Nodup ∧
      (i, j) ∉ neighbour_coords w i j ∧
      (∀ p, p ∈ neighbour_coords w i j ↔ p ∈ at_distance_one g.nb_rows g.nb_cols i j) ∧
      (at_distance_one g.nb_rows g.nb_cols i j).Nodup ∧
      (g.m_board.length = g.nb_rows * g.nb_cols → (∀ v ∈ g.m_board, v = 0 ∨ v = 1) →
        sum_cells g (neighbour_coords w i j) =
          Except.ok ((at_distance_one g.nb_rows g.nb_cols i j).filter (is_alive g)).length) := by
  obtain ⟨hnd, hself, hmem⟩ := neighbour_coords_distance g hrows hcols hi hj
  have hnd2 := at_distance_one_nodup g.nb_rows g.nb_cols i j
  refine ⟨wrap_of g i j, wrapped_of_lt g hi hj, hnd, hself, hmem, hnd2, fun hlen hbin => ?_⟩
  have hperm : List.Perm (neighbour_coords (wrap_of g i j) i j)
      (at_distance_one g.nb_rows g.nb_cols i j) :=
    (List.perm_ext_iff_of_nodup hnd hnd2).mpr hmem
  rw [sum_cells_of_lt g hlen _ (neighbour_coords_lt g hi hj),
    cells_total_eq_count g hlen hbin _ (neighbour_coords_lt g hi hj),
    (hperm.filter (is_alive g)).length_eq]

/-- Witness of C19: the centre `(2,2)` of the 5x5 grid holding a blinker has two living
cells at distance 1. -/
theorem neighbour_sum_is_count_witness :
    (3 ≤ blinker_5x5.nb_rows ∧ 3 ≤ blinker_5x5.nb_cols ∧ 2 < blinker_5x5.nb_rows ∧
      2 < blinker_5x5.nb_cols) ∧
    ∃ w, wrapped blinker_5x5 2 2 = Except.ok w ∧
      (neighbour_coords w 2 2).Nodup ∧
      (2, 2) ∉ neighbour_coords w 2 2 ∧
      (∀ p, p ∈ neighbour_coords w 2 2 ↔
        p ∈ at_distance_one blinker_5x5.nb_rows blinker_5x5.nb_cols 2 2) ∧
      (at_distance_one blinker_5x5.nb_rows blinker_5x5.nb_cols 2 2).Nodup ∧
      (blinker_5x5.m_board.length = blinker_5x5.nb_rows * blinker_5x5.nb_cols →
        (∀ v ∈ blinker_5x5.m_board, v = 0 ∨ v = 1) →
        sum_cells blinker_5x5 (neighbour_coords w 2 2) =
          Except.ok ((at_distance_one blinker_5x5.nb_rows blinker_5x5.nb_cols 2 2).filter
            (is_alive blinker_5x5)).length) :=
  ⟨⟨by decide, by decide, by decide, by decide⟩,
    neighbour_sum_is_count blinker_5x5 2 2 (by decide) (by decide) (by decide) (by decide)⟩

/-- C20: for a cell `(i,j)` inside the extent, `left_index = right_index` when
`nb_cols = 2` and `bottom_index = up_index` when `nb_rows = 2`; on a 2x2 grid with a
buffer of 4 cells the sum of the eight values `update()` reads for `(i,j)` is
`2*v(1-i,j) + 2*v(i,1-j) + 4*v(1-i,1-j)`; and on the 2x2 grid with all cells alive every
cell has the sum 8 and the grid is entirely dead after one `update()`. -/
theorem narrow_grid_multiplicity (g : board_game) (i j : Nat)
    (hi : i < g.nb_rows) (hj : j < g.nb_cols) :
    (g.nb_cols = 2 → ∃ w, wrapped g i j = Except.ok w ∧ w.left_index = w.right_index ∧
      w.left_index = 1 - j) ∧
    (g.nb_rows = 2 → ∃ w, wrapped g i j = Except.ok w ∧ w.bottom_index = w.up_index ∧
      w.bottom_index = 1 - i) ∧
    (g.nb_rows = 2 → g.nb_cols = 2 → g.m_board.length = 4 →
      ∃ w x y z, wrapped g i j = Except.ok w ∧
        g.get (1 - i) j = Except.ok x ∧ g.get i (1 - j) = Except.ok y ∧
        g.get (1 - i) (1 - j) = Except.ok z ∧
        sum_cells g (neighbour_coords w i j) = Except.ok (2 * x + 2 * y + 4 * z)) ∧
    (∀ i2 j2, i2 < 2 → j2 < 2 →
      ∃ w, wrapped (board_game.mk 2 2 [1, 1, 1, 1]) i2 j2 = Except.ok w ∧
        sum_cells (board_game.mk 2 2 [1, 1, 1, 1]) (neighbour_coords w i2 j2) =
          Except.ok 8) ∧
    (board_game.mk 2 2 [1, 1, 1, 1]).update = Except.ok (board_game.mk 2 2 [0, 0, 0, 0]) := by
  refine ⟨fun hc => ?_, fun hr => ?_, fun hr hc hl => ?_, fun i2 j2 hi2 hj2 => ?_, rfl⟩
  · refine ⟨wrap_of g i j, wrapped_of_lt g hi hj, ?_, ?_⟩
    · simp only [wrap_of, hc]
      rw [hc] at hj
      interval_cases j <;> rfl
    · simp only [wrap_of, hc]
      rw [hc] at hj
      interval_cases j <;> rfl
  · refine ⟨wrap_of g i j, wrapped_of_lt g hi hj, ?_, ?_⟩
    · simp only [wrap_of, hr]
      rw [hr] at hi
      interval_cases i <;> rfl
    · simp only [wrap_of, hr]
      rw [hr] at hi
      interval_cases i <;> rfl
  · have hlen : g.m_board.length = g.nb_rows * g.nb_cols := by rw [hl, hr, hc]
    have hi2 : i < 2 := by rw [← hr]; exact hi
    have hj2 : j < 2 := by rw [← hc]; exact hj
    have h1i : 1 - i < g.nb_rows := by omega
    have h1j : 1 - j < g.nb_cols := by omega
    refine ⟨wrap_of g i j, cell g (1 - i) j, cell g i (1 - j), cell g (1 - i) (1 - j),
      wrapped_of_lt g hi hj, get_of_lt g hlen h1i hj, get_of_lt g hlen hi h1j,
      get_of_lt g hlen h1i h1j, ?_⟩
    rw [sum_cells_of_lt g hlen _ (neighbour_coords_lt g hi hj)]
    congr 1
    simp only [cells_total, neighbour_coords, wrap_of, hr, hc, List.map_cons, List.map_nil,
      List.sum_cons, List.sum_nil]
    interval_cases i <;> interval_cases j <;>
      simp only [Nat.reduceAdd, Nat.reduceSub, Nat.reduceMod] <;> omega
  · refine ⟨wrap_of (board_game.mk 2 2 [1, 1, 1, 1]) i2 j2,
      wrapped_of_lt (board_game.mk 2 2 [1, 1, 1, 1]) hi2 hj2, ?_⟩
    interval_cases i2 <;> interval_cases j2 <;> rfl

/-- Witness of C20: the cell `(0,1)` of a 2x2 grid holding four different values. -/
theorem narrow_grid_multiplicity_witness :
    (0 < (board_game.mk 2 2 [1, 2, 3, 4]).nb_rows ∧
      1 < (board_game.mk 2 2 [1, 2, 3, 4]).nb_cols) ∧
    ∃ w x y z, wrapped (board_game.mk 2 2 [1, 2, 3, 4]) 0 1 = Except.ok w ∧
      (board_game.mk 2 2 [1, 2, 3, 4]).get (1 - 0) 1 = Except.ok x ∧
      (board_game.mk 2 2 [1, 2, 3, 4]).get 0 (1 - 1) = Except.ok y ∧
      (board_game.mk 2 2 [1, 2, 3, 4]).get (1 - 0) (1 - 1) = Except.ok z ∧
      sum_cells (board_game.mk 2 2 [1, 2, 3, 4]) (neighbour_coords w 0 1) =
        Except.ok (2 * x + 2 * y + 4 * z) :=
  ⟨⟨by decide, by decide⟩,
    (narrow_grid_multiplicity (board_game.mk 2 2 [1, 2, 3, 4]) 0 1 (by decide)
      (by decide)).2.2.1 rfl rfl rfl⟩

end LifeGame
